import Mathlib

/-!
# PPM image editor (`program1.go`): a shallow embedding and its verified properties

The program decodes an ASCII (P3) pixel map, applies the selected filters in a fixed
order and encodes the result.  This file embeds the Go code as Lean functions:

* Go `int` is the 64-bit signed integer of the usual targets; values are modelled in `Int`
  and every arithmetic result on channel values is reduced by `wrapInt`.
* A Go `string` or file content is a sequence of bytes, modelled as `List Nat`
  (every element below 256).
* A Go slice `[]Pixel` is a `List Pixel`; an in-place loop returns the updated list, and a
  run-time panic (index out of range, `make` length or capacity out of range, modulo by
  zero) is a failure value.
* `make` follows `runtime.makeslice` of the 64-bit Linux targets: it panics when the length
  is negative or when the requested bytes exceed `maxAlloc`, the largest allocation the
  runtime admits. A request within that limit is taken to be served: how much memory the
  machine has is not modelled.
-/

namespace PPM

/-! ## Go integers -/

/-- Two-complement reduction of a mathematical integer to the 64-bit `int` range. -/
def wrapInt (x : Int) : Int := (x + 2 ^ 63) % 2 ^ 64 - 2 ^ 63

/-- Smallest Go `int`. -/
def minInt : Int := -(2 ^ 63)

/-- Largest Go `int`. -/
def maxInt : Int := 2 ^ 63 - 1

/-- Membership in the range of Go `int`. -/
def isInt (x : Int) : Prop := minInt ≤ x ∧ x ≤ maxInt

instance (x : Int) : Decidable (isInt x) := by unfold isInt; infer_instance

/-- Go `a + b` on `int`. -/
def intAdd (a b : Int) : Int := wrapInt (a + b)

/-- Go `a - b` on `int`. -/
def intSub (a b : Int) : Int := wrapInt (a - b)

/-- Go `a / b` on `int` for a non-zero constant divisor: the quotient truncated toward zero. -/
def intDiv (a b : Int) : Int := wrapInt (Int.tdiv a b)

/-! ## Data model -/

/-- Go `type Pixel struct { R, G, B int }`. -/
structure Pixel where
  R : Int
  G : Int
  B : Int
deriving DecidableEq, Repr

/-- Every channel of the pixel is a value of Go `int`. -/
def Pixel.isInt (p : Pixel) : Prop := PPM.isInt p.R ∧ PPM.isInt p.G ∧ PPM.isInt p.B

instance (p : Pixel) : Decidable p.isInt := by unfold Pixel.isInt; infer_instance

/-- ASCII bytes of a string literal of the source. -/
def ascii (s : String) : List Nat := s.toList.map Char.toNat

/-! ## Element-wise filters

Each of these Go functions is a loop `for i := range pixels` whose body reads and writes
`pixels[i]` only; the loop is the `map` of its body. -/

/-- Body of the loop of `convertToGrayscale`. -/
def grayPixel (p : Pixel) : Pixel :=
  let gray := intDiv (intAdd (intAdd p.R p.G) p.B) 3
  { R := gray, G := gray, B := gray }

/-- Go `convertToGrayscale`. -/
def convertToGrayscale (pixels : List Pixel) : List Pixel :=
  pixels.map grayPixel

/-- Body of the loop of `invertColors`. -/
def invertPixel (p : Pixel) : Pixel :=
  { R := intSub 255 p.R, G := intSub 255 p.G, B := intSub 255 p.B }

/-- Go `invertColors`. -/
def invertColors (pixels : List Pixel) : List Pixel :=
  pixels.map invertPixel

/-- Go `strings.Contains(s, c)` for a needle `c` of one byte. -/
def stringsContains (s : List Nat) (c : Char) : Bool :=
  s.contains c.toNat

/-- Body of the loop of `flattenColors`: three successive conditional assignments. -/
def flattenPixel (colors : List Nat) (p : Pixel) : Pixel :=
  let p1 := if stringsContains colors 'r' then { p with R := 0 } else p
  let p2 := if stringsContains colors 'g' then { p1 with G := 0 } else p1
  if stringsContains colors 'b' then { p2 with B := 0 } else p2

/-- Go `flattenColors`. -/
def flattenColors (pixels : List Pixel) (colors : List Nat) : List Pixel :=
  pixels.map (flattenPixel colors)

/-- Go `contrastValue`. -/
def contrastValue (color : Int) : Int :=
  if color > 127 then 255 else 0

/-- Body of the loop of `applyExtremeContrast`. -/
def contrastPixel (p : Pixel) : Pixel :=
  { R := contrastValue p.R, G := contrastValue p.G, B := contrastValue p.B }

/-- Go `applyExtremeContrast`. -/
def applyExtremeContrast (pixels : List Pixel) : List Pixel :=
  pixels.map contrastPixel

/-! ## Flips

The two flips swap elements in place.  `pixels[i], pixels[j] = pixels[j], pixels[i]` panics
when an index is negative or not below `len(pixels)`.  The index expressions are evaluated
in `Int` without reduction.  This is what Go computes on every call with a buffer of
`width*height` pixels, the only calls that `main` makes: when a loop body runs both
dimensions are positive, every value computed is below `width*height`, and a slice has at
most `2^63 - 1` elements. -/

/-- Go `pixels[i], pixels[j] = pixels[j], pixels[i]`; `none` is the index panic. -/
def swapPixels (pixels : List Pixel) (i j : Int) : Option (List Pixel) :=
  if 0 ≤ i ∧ i < pixels.length ∧ 0 ≤ j ∧ j < pixels.length then
    match pixels[i.toNat]?, pixels[j.toNat]? with
    | some a, some b => some ((pixels.set i.toNat b).set j.toNat a)
    | _, _ => none
  else none

/-- Go `for v := 0; v < bound; v++ { body }` over a state that a panic aborts. -/
def forLoop {σ : Type} (bound : Int) (body : σ → Int → Option σ) (init : σ) : Option σ :=
  (List.range bound.toNat).foldlM (fun s (v : Nat) => body s (v : Int)) init

/-- Go `flipHorizontally`. -/
def flipHorizontally (pixels : List Pixel) (width height : Int) : Option (List Pixel) :=
  forLoop height (fun pixels y =>
    forLoop (Int.tdiv width 2) (fun pixels x =>
      let opposite := width - 1 - x
      let leftIndex := y * width + x
      let rightIndex := y * width + opposite
      swapPixels pixels leftIndex rightIndex) pixels) pixels

/-- Go `flipVertically`. -/
def flipVertically (pixels : List Pixel) (width height : Int) : Option (List Pixel) :=
  forLoop (Int.tdiv height 2) (fun pixels y =>
    forLoop width (fun pixels x =>
      let opposite := (height - 1 - y) * width
      let current := y * width
      swapPixels pixels (current + x) (opposite + x)) pixels) pixels

/-! ## Text input: `bufio.Scanner` with `bufio.ScanWords`, and `strconv.Atoi`

The decoder reads its file through a `bufio.Scanner` that splits with `bufio.ScanWords`.
These library functions are embedded from their Go sources. -/

/-- Value `utf8.RuneError`. -/
def runeError : Nat := 0xFFFD

/-- Table `first` of `unicode/utf8` for a lead byte of a multi-byte encoding:
the size of the encoding and the accepted range of its second byte. -/
def leadInfo (p0 : Nat) : Option (Nat × Nat × Nat) :=
  if 0xC2 ≤ p0 ∧ p0 ≤ 0xDF then some (2, 0x80, 0xBF)
  else if p0 = 0xE0 then some (3, 0xA0, 0xBF)
  else if 0xE1 ≤ p0 ∧ p0 ≤ 0xEC then some (3, 0x80, 0xBF)
  else if p0 = 0xED then some (3, 0x80, 0x9F)
  else if p0 = 0xEE ∨ p0 = 0xEF then some (3, 0x80, 0xBF)
  else if p0 = 0xF0 then some (4, 0x90, 0xBF)
  else if 0xF1 ≤ p0 ∧ p0 ≤ 0xF3 then some (4, 0x80, 0xBF)
  else if p0 = 0xF4 then some (4, 0x80, 0x8F)
  else none

/-- Go `utf8.DecodeRune`: the first rune of `p` and its width in bytes. -/
def decodeRune (p : List Nat) : Nat × Nat :=
  match p with
  | [] => (runeError, 0)
  | p0 :: t =>
    match leadInfo p0 with
    | none => if p0 < 0x80 then (p0, 1) else (runeError, 1)
    | some (sz, lo, hi) =>
      if p.length < sz then (runeError, 1) else
      match t with
      | [] => (runeError, 1)
      | b1 :: t1 =>
        if b1 < lo ∨ hi < b1 then (runeError, 1) else
        if sz ≤ 2 then ((p0 % 32) * 64 + b1 % 64, 2) else
        match t1 with
        | [] => (runeError, 1)
        | b2 :: t2 =>
          if b2 < 0x80 ∨ 0xBF < b2 then (runeError, 1) else
          if sz ≤ 3 then ((p0 % 16) * 4096 + (b1 % 64) * 64 + b2 % 64, 3) else
          match t2 with
          | [] => (runeError, 1)
          | b3 :: _ =>
            if b3 < 0x80 ∨ 0xBF < b3 then (runeError, 1) else
            ((p0 % 8) * 262144 + (b1 % 64) * 4096 + (b2 % 64) * 64 + b3 % 64, 4)

/-- Go `isSpace` of package `bufio`. -/
def isSpace (r : Nat) : Bool :=
  if r ≤ 0xFF then
    r = 0x20 ∨ r = 0x09 ∨ r = 0x0A ∨ r = 0x0B ∨ r = 0x0C ∨ r = 0x0D ∨ r = 0x85 ∨ r = 0xA0
  else if 0x2000 ≤ r ∧ r ≤ 0x200A then true
  else r = 0x1680 ∨ r = 0x2028 ∨ r = 0x2029 ∨ r = 0x202F ∨ r = 0x205F ∨ r = 0x3000

/-- First loop of `ScanWords`: the number of bytes taken by the leading space runes.
The first argument bounds the number of iterations; the length of the data suffices. -/
def skipSpaces : Nat → List Nat → Nat
  | 0, _ => 0
  | fuel + 1, data =>
    match data with
    | [] => 0
    | _ :: _ =>
      let (r, width) := decodeRune data
      if isSpace r then width + skipSpaces fuel (data.drop width) else 0

/-- Second loop of `ScanWords`: the offset of the first space rune and its width. -/
def findSpace : Nat → List Nat → Option (Nat × Nat)
  | 0, _ => none
  | fuel + 1, data =>
    match data with
    | [] => none
    | _ :: _ =>
      let (r, width) := decodeRune data
      if isSpace r then some (0, width)
      else (findSpace fuel (data.drop width)).map (fun iw => (iw.1 + width, iw.2))

/-- Go `bufio.ScanWords(data, atEOF)`: the advance and the token, if one is complete. -/
def ScanWords (data : List Nat) (atEOF : Bool) : Nat × Option (List Nat) :=
  let start := skipSpaces data.length data
  let word := data.drop start
  match findSpace word.length word with
  | some (i, width) => (start + i + width, some (word.take i))
  | none =>
    if atEOF ∧ data.length > start then (data.length, some word) else (start, none)

/-- Constant `bufio.MaxScanTokenSize`, the largest size of the scanner buffer. -/
def maxScanTokenSize : Nat := 64 * 1024

/-- State of a `bufio.Scanner` over a file: the bytes not yet consumed, the last token
(`Text()`), and whether `Err()` is `ErrTooLong`. -/
structure Scanner where
  input : List Nat
  token : List Nat
  err : Bool
deriving DecidableEq, Repr

/-- Go `(*Scanner).Scan` with the split function `ScanWords`.  Leading spaces are dropped
as they are read; the buffer then holds at most `maxScanTokenSize` bytes from the start of
the word, and a buffer that is full without a complete token stops the scanner with
`ErrTooLong`.  After that error the split function sees the buffer as final data. -/
def Scanner.Scan (s : Scanner) : Bool × Scanner :=
  if s.err then
    match ScanWords s.input true with
    | (advance, some token) => (true, { s with input := s.input.drop advance, token := token })
    | (_, none) => (false, { s with input := [], token := [] })
  else
    let rest := s.input.drop (skipSpaces s.input.length s.input)
    let buf := rest.take maxScanTokenSize
    let atEOF : Bool := rest.length < maxScanTokenSize
    match ScanWords buf atEOF with
    | (advance, some token) => (true, { input := rest.drop advance, token := token, err := false })
    | (_, none) =>
      if atEOF then (false, { input := [], token := [], err := false })
      else (false, { input := buf, token := [], err := true })

/-- Value of a string of decimal digits, `none` when a byte is not a digit. -/
def parseDigits : List Nat → Nat → Option Nat
  | [], n => some n
  | ch :: s, n => if 48 ≤ ch ∧ ch ≤ 57 then parseDigits s (n * 10 + (ch - 48)) else none

/-- Go `strconv.Atoi` on a 64-bit target: an optional sign, then one or more decimal
digits, with a value in the range of `int`; `none` is the syntax or range error. -/
def Atoi (s : List Nat) : Option Int :=
  match s with
  | [] => none
  | c :: t =>
    let neg : Bool := c = 45
    let digits := if c = 45 ∨ c = 43 then t else s
    match digits with
    | [] => none
    | _ :: _ =>
      match parseDigits digits 0 with
      | none => none
      | some n =>
        if neg then (if n ≤ 2 ^ 63 then some (-(n : Int)) else none)
        else (if n < 2 ^ 63 then some (n : Int) else none)

/-! ## Text output: the verb `%d` of package `fmt` -/

/-- Decimal digits of `u` in front of `buf`, as the loop of `fmtInteger` writes them. -/
def fmtNatAux : Nat → Nat → List Nat → List Nat
  | 0, u, buf => (48 + u) :: buf
  | fuel + 1, u, buf =>
    if u ≥ 10 then fmtNatAux fuel (u / 10) ((48 + u % 10) :: buf) else (48 + u) :: buf

/-- Decimal representation of a natural number. -/
def fmtNat (u : Nat) : List Nat := fmtNatAux u u []

/-- Go `%d` applied to an `int`. -/
def fmtInt (v : Int) : List Nat :=
  if v < 0 then 45 :: fmtNat v.natAbs else fmtNat v.toNat

/-! ## Decoder -/

/-- Ways in which the program stops without a result: the returned error "file is not in
PPM P3 format", the returned error of the scanner (`scanner.Err()`), the end of the process
through `log.Fatal` in `checkError`, and a run-time panic. -/
inductive Failure where
  | format
  | scan
  | fatal
  | panic
deriving DecidableEq, Repr

deriving instance DecidableEq for Except

/-- Go `checkError` applied to the error of a conversion: a failed conversion ends the
process through `log.Fatal`, a successful one lets the caller go on with the value. -/
def checkError {α : Type} (r : Option α) : Except Failure α :=
  match r with
  | some val => .ok val
  | none => .error Failure.fatal

/-- Go `scanner.Scan(); val, err := strconv.Atoi(scanner.Text()); checkError(err)`.  The
result of `Scan` is not looked at: at the end of the input `Text()` is the empty string. -/
def scanInt (s : Scanner) : Except Failure (Int × Scanner) :=
  let s1 := s.Scan.2
  match checkError (Atoi s1.token) with
  | .ok val => .ok (val, s1)
  | .error e => .error e

/-- Loop `for k := 0; k < 3; k++` of `readPPMFile`, filling the channels of one pixel. -/
def readPixel (s : Scanner) : Except Failure (Pixel × Scanner) :=
  (List.range 3).foldlM (fun (st : Pixel × Scanner) k =>
    match scanInt st.2 with
    | .error e => .error e
    | .ok (val, s1) =>
      .ok (match k with
        | 0 => ({ st.1 with R := val }, s1)
        | 1 => ({ st.1 with G := val }, s1)
        | 2 => ({ st.1 with B := val }, s1)
        | _ => (st.1, s1))) ({ R := 0, G := 0, B := 0 }, s)

/-- Loop `for j := range inputRGBValues[i]` of `readPPMFile` over a row of `n` pixels. -/
def readRow : Nat → Scanner → Except Failure (List Pixel × Scanner)
  | 0, s => .ok ([], s)
  | n + 1, s =>
    match readPixel s with
    | .error e => .error e
    | .ok (pixel, s1) =>
      match readRow n s1 with
      | .error e => .error e
      | .ok (row, s2) => .ok (pixel :: row, s2)

/-- Largest allocation of the Go runtime on the 64-bit Linux targets
(`maxAlloc = 1 << heapAddrBits` with `heapAddrBits = 48`), in bytes. -/
def maxAlloc : Int := 2 ^ 48

/-- Size in bytes of a `Pixel` (three `int` fields) and also of a slice header `[]Pixel`
(pointer, length, capacity): the element size of every `make` in `readPPMFile`. -/
def elemSize : Int := 24

/-- Go `make` of a slice of `n` elements of `elemSize` bytes panics
(`makeslice: len out of range`, `makeslice: cap out of range`): `runtime.makeslice` does so
when `n` is negative or when `elemSize * n` overflows or exceeds `maxAlloc`. -/
def makePanics (n : Int) : Bool :=
  decide (n < 0) || decide (maxAlloc < elemSize * n)

/-- Loop `for i := range inputRGBValues` of `readPPMFile` over `n` rows; each iteration
starts with `make([]Pixel, ppmCols)`, which panics on a length out of range. -/
def readRows : Nat → Int → Scanner → Except Failure (List (List Pixel) × Scanner)
  | 0, _, s => .ok ([], s)
  | n + 1, ppmCols, s =>
    if makePanics ppmCols then .error Failure.panic else
    match readRow ppmCols.toNat s with
    | .error e => .error e
    | .ok (row, s1) =>
      match readRows n ppmCols s1 with
      | .error e => .error e
      | .ok (rows, s2) => .ok (row :: rows, s2)

/-- Go `readPPMFile` on the content of a file that could be opened: the pixels, the
width and the height, or the way in which decoding stops. The three allocations are
`make([][]Pixel, ppmRows)`, `make([]Pixel, ppmCols)` in every row, and
`make([]Pixel, 0, ppmRows*ppmCols)` with the product taken in `int`; the `append` loop
grows the last slice only when that capacity is below the number of pixels, and then
`runtime.growslice` panics once the bytes needed exceed `maxAlloc`. -/
def readPPMFile (content : List Nat) : Except Failure (List Pixel × Int × Int) :=
  let scanner : Scanner := { input := content, token := [], err := false }
  let r0 := scanner.Scan
  if !r0.1 || r0.2.token != ascii "P3" then .error Failure.format else
  match scanInt r0.2 with
  | .error e => .error e
  | .ok (ppmCols, s1) =>
    match scanInt s1 with
    | .error e => .error e
    | .ok (ppmRows, s2) =>
      let s3 := s2.Scan.2
      if makePanics ppmRows then .error Failure.panic else
      match readRows ppmRows.toNat ppmCols s3 with
      | .error e => .error e
      | .ok (inputRGBValues, s4) =>
        if s4.err then .error Failure.scan
        else if makePanics (wrapInt (ppmRows * ppmCols)) then .error Failure.panic
        else if maxAlloc < elemSize * (inputRGBValues.flatten.length : Int) then
          .error Failure.panic
        else .ok (inputRGBValues.flatten, ppmCols, ppmRows)

/-! ## Encoder -/

/-- Loop `for i, pixel := range pixels` of `writePPMFile`, from index `i` on: the bytes
written, or `none` when `(i+1)%width` panics on a zero `width`. -/
def writePixels (width : Int) : Nat → List Pixel → Option (List Nat)
  | _, [] => some []
  | i, pixel :: rest =>
    let triple := fmtInt pixel.R ++ ascii " " ++ fmtInt pixel.G ++ ascii " "
      ++ fmtInt pixel.B ++ ascii " "
    if width = 0 then none else
    let eol := if Int.tmod ((i : Int) + 1) width = 0 then ascii "\n" else []
    match writePixels width (i + 1) rest with
    | none => none
    | some out => some (triple ++ eol ++ out)

/-- Go `writePPMFile` on a file that could be created and written: the bytes of the file. -/
def writePPMFile (pixels : List Pixel) (width height : Int) : Option (List Nat) :=
  let header := ascii "P3\n" ++ fmtInt width ++ ascii " " ++ fmtInt height ++ ascii "\n255\n"
  match writePixels width 0 pixels with
  | none => none
  | some body => some (header ++ body)

/-! ## Orchestrator -/

/-- Command-line flags of the program that select filters. -/
structure Flags where
  flipH : Bool
  flipV : Bool
  grayscale : Bool
  invert : Bool
  flatten : List Nat
  extreme : Bool
deriving DecidableEq, Repr

/-- Filter section of Go `main`: the successive conditional reassignments of `pixels`;
`none` when a flip panics. -/
def applyFilters (f : Flags) (pixels : List Pixel) (width height : Int) :
    Option (List Pixel) :=
  match (if f.flipH then flipHorizontally pixels width height else some pixels) with
  | none => none
  | some pixels =>
    match (if f.flipV then flipVertically pixels width height else some pixels) with
    | none => none
    | some pixels =>
      let pixels := if f.grayscale then convertToGrayscale pixels else pixels
      let pixels := if f.invert then invertColors pixels else pixels
      let pixels := if f.flatten ≠ [] then flattenColors pixels f.flatten else pixels
      let pixels := if f.extreme then applyExtremeContrast pixels else pixels
      some pixels

/-- Go `main` after flag parsing, for a named input file with the given content: the bytes
written to the output file.  A decoder error ends the run before anything is written. -/
def main (f : Flags) (content : List Nat) : Except Failure (List Nat) :=
  match readPPMFile content with
  | .error e => .error e
  | .ok (pixels, width, height) =>
    match applyFilters f pixels width height with
    | none => .error Failure.panic
    | some pixels =>
      match writePPMFile pixels width height with
      | none => .error Failure.panic
      | some out => .ok out

/-! ## The filter pipeline as the specification words it

A second description of the filter section of `main`, written from the specification: an
ordered list of stages, each with its selection, run from first to last.  It is compared
with `applyFilters`, which is written from the code. -/

/-- The six stages in the order of the specification, each with its selection:
flip-horizontal, flip-vertical, grayscale, invert, flatten (selected when the flatten
string is not empty), extreme-contrast. -/
def pipelineStages (f : Flags) (width height : Int) :
    List (Bool × (List Pixel → Option (List Pixel))) :=
  [ (f.flipH, fun px => flipHorizontally px width height),
    (f.flipV, fun px => flipVertically px width height),
    (f.grayscale, fun px => some (convertToGrayscale px)),
    (f.invert, fun px => some (invertColors px)),
    (decide (f.flatten ≠ []), fun px => some (flattenColors px f.flatten)),
    (f.extreme, fun px => some (applyExtremeContrast px)) ]

/-- Runs the stages from first to last: a selected stage applies its filter, an unselected
stage is the identity. -/
def runStages (stages : List (Bool × (List Pixel → Option (List Pixel))))
    (pixels : List Pixel) : Option (List Pixel) :=
  stages.foldl (fun acc st => acc.bind (fun px => if st.1 then st.2 px else some px))
    (some pixels)

/-- Every channel of the pixel lies in [0,255], the channel domain of the data model. -/
def Pixel.inRange (p : Pixel) : Prop :=
  (0 ≤ p.R ∧ p.R ≤ 255) ∧ (0 ≤ p.G ∧ p.G ≤ 255) ∧ (0 ≤ p.B ∧ p.B ≤ 255)

instance (p : Pixel) : Decidable p.inRange := by unfold Pixel.inRange; infer_instance

/-! ## Pipelines built from the six filters

The specification speaks of any pipeline built from the filters.  A pipeline is a list of
filter names, run from first to last on a buffer with fixed dimensions. -/

/-- Name of one of the six filters; `flatten` carries its colour string. -/
inductive Filter where
  | flipH
  | flipV
  | grayscale
  | invert
  | flatten (colors : List Nat)
  | extreme
deriving DecidableEq, Repr

/-- Applies the named filter; `none` when a flip panics. -/
def runFilter (width height : Int) (pixels : List Pixel) : Filter → Option (List Pixel)
  | Filter.flipH => flipHorizontally pixels width height
  | Filter.flipV => flipVertically pixels width height
  | Filter.grayscale => some (convertToGrayscale pixels)
  | Filter.invert => some (invertColors pixels)
  | Filter.flatten colors => some (flattenColors pixels colors)
  | Filter.extreme => some (applyExtremeContrast pixels)

/-- Runs the named filters from first to last. -/
def runPipeline (width height : Int) (filters : List Filter) (pixels : List Pixel) :
    Option (List Pixel) :=
  filters.foldlM (runFilter width height) pixels

/-! ## The output format as the specification words it

A second description of the encoder's output, written from the specification: the header,
then one line per image row, each line made of the pixel texts of the row.  It is compared
with `writePPMFile`, which is written from the code. -/

/-- Text of one pixel: the decimal R, G and B, each followed by one space. -/
def pixelText (px : Pixel) : List Nat :=
  fmtInt px.R ++ ascii " " ++ fmtInt px.G ++ ascii " " ++ fmtInt px.B ++ ascii " "

/-- Line of row `r`: the texts of the pixels `p[r*width+col]` for `col` from 0 to
`width-1`, followed by one line feed. -/
def rowText (p : List Pixel) (width r : Nat) : List Nat :=
  (List.range width).flatMap
    (fun col => match p[r * width + col]? with
      | some px => pixelText px
      | none => [])
    ++ ascii "\n"

/-- The file for a buffer of `width` by `height` pixels: the magic line, the line of the
dimensions, the line `255`, then the lines of the rows 0 to `height-1`. -/
def expectedFile (p : List Pixel) (width height : Nat) : List Nat :=
  ascii "P3\n" ++ (fmtInt width ++ ascii " " ++ fmtInt height ++ ascii "\n") ++ ascii "255\n"
    ++ (List.range height).flatMap (rowText p width)

/-! ## The tokens of an input -/

/-- Tokens that successive calls of `Scan` deliver, up to the first call that returns
false.  The first argument bounds the number of calls. -/
def scanTokens : Nat → Scanner → List (List Nat)
  | 0, _ => []
  | fuel + 1, s => if s.Scan.1 then s.Scan.2.token :: scanTokens fuel s.Scan.2 else []

/-- Tokens that a scanner still delivers.  A delivered token consumes at least one byte, so
one call more than the number of bytes left suffices. -/
def Scanner.tokens (s : Scanner) : List (List Nat) :=
  scanTokens (s.input.length + 1) s

/-- Tokens of the content of a file, as the scanner of the decoder delivers them. -/
def tokens (content : List Nat) : List (List Nat) :=
  Scanner.tokens { input := content, token := [], err := false }

/-- Channel values of a pixel in the order in which the decoder reads them. -/
def channels (px : Pixel) : List Int := [px.R, px.G, px.B]

/-- First whitespace-delimited token of a text: the token that `ScanWords` finds in the whole
text taken as final data; `none` when the text holds no token. -/
def firstToken (content : List Nat) : Option (List Nat) :=
  (ScanWords content true).2

/-! # Verified properties -/

/-! ## Integer arithmetic -/

theorem wrapInt_of_isInt {x : Int} (h : isInt x) : wrapInt x = x := by
  unfold isInt minInt maxInt at h
  unfold wrapInt
  omega

theorem isInt_wrapInt (x : Int) : isInt (wrapInt x) := by
  unfold isInt minInt maxInt wrapInt
  omega

theorem wrapInt_add_left (a b : Int) : wrapInt (wrapInt a + b) = wrapInt (a + b) := by
  unfold wrapInt
  omega

theorem tdiv_three (x : Int) : Int.tdiv x 3 = if 0 ≤ x then x / 3 else -((-x) / 3) := by
  split
  · rw [Int.tdiv_eq_ediv] <;> omega
  · have hx : x = -(-x) := by omega
    rw [hx, Int.neg_tdiv, Int.tdiv_eq_ediv (by omega) (by omega)]
    simp

theorem intDiv_three_of_isInt {x : Int} (h : isInt x) : intDiv x 3 = Int.tdiv x 3 := by
  unfold intDiv
  apply wrapInt_of_isInt
  rw [tdiv_three]
  unfold isInt minInt maxInt at *
  split <;> omega

/-- The gray level that `convertToGrayscale` stores: the truncated third of the wrapped sum. -/
theorem grayPixel_eq (p : Pixel) :
    grayPixel p = ⟨Int.tdiv (wrapInt (p.R + p.G + p.B)) 3,
      Int.tdiv (wrapInt (p.R + p.G + p.B)) 3, Int.tdiv (wrapInt (p.R + p.G + p.B)) 3⟩ := by
  have h : intDiv (intAdd (intAdd p.R p.G) p.B) 3 = Int.tdiv (wrapInt (p.R + p.G + p.B)) 3 := by
    unfold intAdd
    rw [wrapInt_add_left, intDiv_three_of_isInt (isInt_wrapInt _)]
  simp only [grayPixel, h]

/-! ## Grayscale (C5) -/

/-- C5, counterexample: the decoder passes the pixel (-1, 0, 0) through, and
`convertToGrayscale` turns it into (0, 0, 0), whereas floor((-1+0+0)/3) is -1: the Go
division truncates toward zero. -/
theorem convertToGrayscale_floor_counterexample :
    readPPMFile (ascii "P3 1 1 255 -1 0 0") = .ok ([⟨-1, 0, 0⟩], 1, 1) ∧
      convertToGrayscale [⟨-1, 0, 0⟩] = [⟨0, 0, 0⟩] ∧
      Int.fdiv (-1 + 0 + 0) 3 = -1 ∧
      convertToGrayscale [⟨-1, 0, 0⟩] ≠
        [⟨Int.fdiv (-1 + 0 + 0) 3, Int.fdiv (-1 + 0 + 0) 3, Int.fdiv (-1 + 0 + 0) 3⟩] := by
  decide

/-- C5, amended: `convertToGrayscale` keeps the number and order of pixels, and the pixel at
each position gets all three channels set to the quotient, truncated toward zero, of its own
channel sum R+G+B (reduced to 64 bits) by 3; this is floor((R+G+B)/3) whenever the sum is
non-negative and at most the largest `int`, in particular for channels in [0,255]. -/
theorem convertToGrayscale_truncated_mean (pixels : List Pixel) (i : Nat) (p : Pixel)
    (hp : pixels[i]? = some p) :
    (convertToGrayscale pixels).length = pixels.length ∧
    ∃ q : Pixel, (convertToGrayscale pixels)[i]? = some q ∧
      q.R = Int.tdiv (wrapInt (p.R + p.G + p.B)) 3 ∧ q.G = q.R ∧ q.B = q.R ∧
      (0 ≤ p.R + p.G + p.B → p.R + p.G + p.B ≤ maxInt →
        q.R = Int.fdiv (p.R + p.G + p.B) 3) := by
  refine ⟨by simp [convertToGrayscale], grayPixel p, ?_, ?_, ?_, ?_, ?_⟩
  · simp [convertToGrayscale, List.getElem?_map, hp]
  · rw [grayPixel_eq]
  · rw [grayPixel_eq]
  · rw [grayPixel_eq]
  · intro h0 h1
    rw [grayPixel_eq]
    have hw : wrapInt (p.R + p.G + p.B) = p.R + p.G + p.B :=
      wrapInt_of_isInt ⟨by unfold minInt; omega, h1⟩
    simp only [hw]
    rw [Int.tdiv_eq_ediv h0 (by omega), Int.fdiv_eq_ediv _ (by omega)]

/-- C5, amended, at the pixel (200, 50, 10) of a two-pixel buffer: gray level 86. -/
theorem convertToGrayscale_truncated_mean_witness :
    (convertToGrayscale [⟨1, 2, 3⟩, ⟨200, 50, 10⟩]).length = 2 ∧
    ∃ q : Pixel, (convertToGrayscale [⟨1, 2, 3⟩, ⟨200, 50, 10⟩])[1]? = some q ∧
      q.R = Int.tdiv (wrapInt (200 + 50 + 10)) 3 ∧ q.G = q.R ∧ q.B = q.R ∧
      (0 ≤ (200 : Int) + 50 + 10 → (200 : Int) + 50 + 10 ≤ maxInt →
        q.R = Int.fdiv (200 + 50 + 10) 3) :=
  convertToGrayscale_truncated_mean [⟨1, 2, 3⟩, ⟨200, 50, 10⟩] 1 ⟨200, 50, 10⟩ (by decide)

/-! ## Invert (C6) -/

/-- C6, counterexample: the decoder passes the smallest Go integer through as a channel
value, and on it `invertColors` stores -2^63 + 255 and not 255 - c = 2^63 + 255: the
subtraction wraps around. -/
theorem invertColors_minInt_counterexample :
    readPPMFile (ascii "P3 1 1 255 -9223372036854775808 0 0")
      = .ok ([⟨-9223372036854775808, 0, 0⟩], 1, 1) ∧
    invertColors [⟨-9223372036854775808, 0, 0⟩] = [⟨-9223372036854775553, 255, 255⟩] ∧
    invertColors [⟨-9223372036854775808, 0, 0⟩] ≠
      [⟨255 - (-9223372036854775808), 255 - 0, 255 - 0⟩] := by
  decide

/-- C6, amended: `invertColors` keeps the number and order of pixels and replaces every
channel c (a Go integer) of the pixel at each position by 255 - c evaluated in 64-bit
arithmetic: exactly 255 - c when c is at least -2^63 + 256, and 255 - c - 2^64 on the 256
smaller values; nothing is clamped, a channel outside [0,255] yields a result outside
[0,255]. -/
theorem invertColors_wrapping (pixels : List Pixel) (i : Nat) (p : Pixel)
    (hp : pixels[i]? = some p) (hint : p.isInt) :
    (invertColors pixels).length = pixels.length ∧
    (∃ q : Pixel, (invertColors pixels)[i]? = some q ∧
      ∀ ch : Pixel → Int, ch ∈ [Pixel.R, Pixel.G, Pixel.B] →
        (minInt + 256 ≤ ch p → ch q = 255 - ch p) ∧
        (ch p < minInt + 256 → ch q = 255 - ch p - 2 ^ 64) ∧
        ((ch p < 0 ∨ 255 < ch p) → (ch q < 0 ∨ 255 < ch q))) ∧
    invertColors [⟨255, 255, 255⟩] = [⟨0, 0, 0⟩] := by
  refine ⟨by simp [invertColors], ⟨invertPixel p, ?_, ?_⟩, by decide⟩
  · simp [invertColors, List.getElem?_map, hp]
  · intro ch hch
    obtain ⟨hR, hG, hB⟩ := hint
    unfold isInt minInt maxInt at hR hG hB
    simp only [List.mem_cons, List.mem_singleton, List.not_mem_nil, or_false] at hch
    rcases hch with rfl | rfl | rfl <;>
      simp only [invertPixel, intSub, wrapInt, minInt] <;>
      refine ⟨?_, ?_, ?_⟩ <;> intros <;> omega

/-- C6, amended, at the single white pixel: it becomes (0, 0, 0). -/
theorem invertColors_wrapping_witness :
    (invertColors [⟨255, 255, 255⟩]).length = 1 ∧
    (∃ q : Pixel, (invertColors [⟨255, 255, 255⟩])[0]? = some q ∧
      ∀ ch : Pixel → Int, ch ∈ [Pixel.R, Pixel.G, Pixel.B] →
        (minInt + 256 ≤ ch ⟨255, 255, 255⟩ → ch q = 255 - ch ⟨255, 255, 255⟩) ∧
        (ch ⟨255, 255, 255⟩ < minInt + 256 → ch q = 255 - ch ⟨255, 255, 255⟩ - 2 ^ 64) ∧
        ((ch ⟨255, 255, 255⟩ < 0 ∨ 255 < ch ⟨255, 255, 255⟩) → (ch q < 0 ∨ 255 < ch q))) ∧
    invertColors [⟨255, 255, 255⟩] = [⟨0, 0, 0⟩] :=
  invertColors_wrapping [⟨255, 255, 255⟩] 0 ⟨255, 255, 255⟩ (by decide) (by decide)

/-! ## Flatten (C7) -/

theorem stringsContains_iff (s : List Nat) (c : Char) : stringsContains s c = true ↔ c.toNat ∈ s := by
  simp [stringsContains]

theorem flattenPixel_eq (colors : List Nat) (p : Pixel) :
    flattenPixel colors p =
      ⟨if 'r'.toNat ∈ colors then 0 else p.R, if 'g'.toNat ∈ colors then 0 else p.G,
        if 'b'.toNat ∈ colors then 0 else p.B⟩ := by
  have er : 'r'.toNat = 114 := rfl
  have eg : 'g'.toNat = 103 := rfl
  have eb : 'b'.toNat = 98 := rfl
  unfold flattenPixel
  simp only [stringsContains_iff, er, eg, eb]
  by_cases hr : 114 ∈ colors <;> by_cases hg : 103 ∈ colors <;>
    by_cases hb : 98 ∈ colors <;> simp [hr, hg, hb]

/-- C7: `flattenColors` uses its `colors` argument as a set of characters.  The pixel at each
position keeps its place and gets R = 0 if 'r' occurs in `colors` and R unchanged otherwise,
likewise G with 'g' and B with 'b'; two strings in which the same letters among r, g, b occur
give the same result; the empty string leaves the buffer unchanged; and Flatten("rb") on a
2x2 image zeroes R and B and keeps G in all four pixels. -/
theorem flattenColors_character_set (pixels : List Pixel) (colors : List Nat) (i : Nat)
    (p : Pixel) (hp : pixels[i]? = some p) :
    (flattenColors pixels colors).length = pixels.length ∧
    (∃ q : Pixel, (flattenColors pixels colors)[i]? = some q ∧
      q.R = (if 'r'.toNat ∈ colors then 0 else p.R) ∧
      q.G = (if 'g'.toNat ∈ colors then 0 else p.G) ∧
      q.B = (if 'b'.toNat ∈ colors then 0 else p.B)) ∧
    (∀ colors2 : List Nat,
      (∀ c : Char, c ∈ ['r', 'g', 'b'] → (c.toNat ∈ colors2 ↔ c.toNat ∈ colors)) →
      flattenColors pixels colors2 = flattenColors pixels colors) ∧
    flattenColors pixels [] = pixels ∧
    flattenColors [⟨1, 2, 3⟩, ⟨4, 5, 6⟩, ⟨7, 8, 9⟩, ⟨10, 11, 12⟩] (ascii "rb")
      = [⟨0, 2, 0⟩, ⟨0, 5, 0⟩, ⟨0, 8, 0⟩, ⟨0, 11, 0⟩] := by
  refine ⟨by simp [flattenColors], ⟨flattenPixel colors p, ?_, ?_, ?_, ?_⟩, ?_, ?_, by decide⟩
  · simp [flattenColors, List.getElem?_map, hp]
  · rw [flattenPixel_eq]
  · rw [flattenPixel_eq]
  · rw [flattenPixel_eq]
  · intro colors2 h
    have hr := h 'r' (by simp)
    have hg := h 'g' (by simp)
    have hb := h 'b' (by simp)
    unfold flattenColors
    congr 1
    funext x
    rw [flattenPixel_eq, flattenPixel_eq]
    simp only [hr, hg, hb]
  · unfold flattenColors
    conv_rhs => rw [← List.map_id pixels]
    congr 1

/-- C7 at Flatten("bbr") on a two-pixel buffer, position 1, compared with Flatten("rb"). -/
theorem flattenColors_character_set_witness :
    (flattenColors [⟨1, 2, 3⟩, ⟨4, 5, 6⟩] (ascii "bbr")).length = 2 ∧
    (∃ q : Pixel, (flattenColors [⟨1, 2, 3⟩, ⟨4, 5, 6⟩] (ascii "bbr"))[1]? = some q ∧
      q.R = (if 'r'.toNat ∈ ascii "bbr" then 0 else 4) ∧
      q.G = (if 'g'.toNat ∈ ascii "bbr" then 0 else 5) ∧
      q.B = (if 'b'.toNat ∈ ascii "bbr" then 0 else 6)) ∧
    (∀ colors2 : List Nat,
      (∀ c : Char, c ∈ ['r', 'g', 'b'] → (c.toNat ∈ colors2 ↔ c.toNat ∈ ascii "bbr")) →
      flattenColors [⟨1, 2, 3⟩, ⟨4, 5, 6⟩] colors2
        = flattenColors [⟨1, 2, 3⟩, ⟨4, 5, 6⟩] (ascii "bbr")) ∧
    flattenColors [⟨1, 2, 3⟩, ⟨4, 5, 6⟩] [] = [⟨1, 2, 3⟩, ⟨4, 5, 6⟩] ∧
    flattenColors [⟨1, 2, 3⟩, ⟨4, 5, 6⟩, ⟨7, 8, 9⟩, ⟨10, 11, 12⟩] (ascii "rb")
      = [⟨0, 2, 0⟩, ⟨0, 5, 0⟩, ⟨0, 8, 0⟩, ⟨0, 11, 0⟩] :=
  flattenColors_character_set [⟨1, 2, 3⟩, ⟨4, 5, 6⟩] (ascii "bbr") 1 ⟨4, 5, 6⟩ (by decide)

/-! ## Extreme contrast (C8) -/

/-- C8: `applyExtremeContrast` keeps the number and order of pixels and thresholds each
channel of the pixel at each position on its own: 255 if the input channel is above 127 and
0 otherwise, so 127 gives 0 and 128 gives 255; pixel (200, 50, 10) becomes (255, 0, 0). -/
theorem applyExtremeContrast_threshold (pixels : List Pixel) (i : Nat) (p : Pixel)
    (hp : pixels[i]? = some p) :
    (applyExtremeContrast pixels).length = pixels.length ∧
    (∃ q : Pixel, (applyExtremeContrast pixels)[i]? = some q ∧
      ∀ ch : Pixel → Int, ch ∈ [Pixel.R, Pixel.G, Pixel.B] →
        (127 < ch p → ch q = 255) ∧ (ch p ≤ 127 → ch q = 0)) ∧
    contrastValue 127 = 0 ∧ contrastValue 128 = 255 ∧
    applyExtremeContrast [⟨200, 50, 10⟩] = [⟨255, 0, 0⟩] := by
  refine ⟨by simp [applyExtremeContrast], ⟨contrastPixel p, ?_, ?_⟩, by decide, by decide,
    by decide⟩
  · simp [applyExtremeContrast, List.getElem?_map, hp]
  · intro ch hch
    simp only [List.mem_cons, List.mem_singleton, List.not_mem_nil, or_false] at hch
    rcases hch with rfl | rfl | rfl <;>
      simp only [contrastPixel, contrastValue] <;>
      constructor <;> intro h <;> simp only [gt_iff_lt] <;> split <;> omega

/-- C8 at the pixel (128, 127, -5) at position 1 of a two-pixel buffer. -/
theorem applyExtremeContrast_threshold_witness :
    (applyExtremeContrast [⟨200, 50, 10⟩, ⟨128, 127, -5⟩]).length = 2 ∧
    (∃ q : Pixel, (applyExtremeContrast [⟨200, 50, 10⟩, ⟨128, 127, -5⟩])[1]? = some q ∧
      ∀ ch : Pixel → Int, ch ∈ [Pixel.R, Pixel.G, Pixel.B] →
        (127 < ch ⟨128, 127, -5⟩ → ch q = 255) ∧ (ch ⟨128, 127, -5⟩ ≤ 127 → ch q = 0)) ∧
    contrastValue 127 = 0 ∧ contrastValue 128 = 255 ∧
    applyExtremeContrast [⟨200, 50, 10⟩] = [⟨255, 0, 0⟩] :=
  applyExtremeContrast_threshold [⟨200, 50, 10⟩, ⟨128, 127, -5⟩] 1 ⟨128, 127, -5⟩ (by decide)

/-! ## Loops and swaps -/

/-- Invariant rule for a counted loop whose body does not panic while the invariant holds. -/
theorem forLoop_invariant {σ : Type} (n : Nat) (body : σ → Int → Option σ)
    (Inv : Nat → σ → Prop) (init : σ) (h0 : Inv 0 init)
    (step : ∀ k s, k < n → Inv k s → ∃ s', body s (k : Int) = some s' ∧ Inv (k + 1) s') :
    ∃ s', forLoop (n : Int) body init = some s' ∧ Inv n s' := by
  unfold forLoop
  simp only [Int.toNat_ofNat]
  induction n with
  | zero => exact ⟨init, by simp, h0⟩
  | succ n ih =>
    obtain ⟨s, hs, hinv⟩ := ih (fun k s hk => step k s (by omega))
    obtain ⟨s', hs', hinv'⟩ := step n s (by omega) hinv
    refine ⟨s', ?_, hinv'⟩
    rw [List.range_succ, List.foldlM_append, hs]
    simp [hs']

/-- A loop with a bound that is not positive leaves the state as it is. -/
theorem forLoop_of_nonpos {σ : Type} (bound : Int) (hb : bound ≤ 0) (body : σ → Int → Option σ)
    (init : σ) : forLoop bound body init = some init := by
  unfold forLoop
  have h : bound.toNat = 0 := by omega
  simp [h]

/-- A swap at two valid positions exchanges the two elements and keeps all others. -/
theorem swapPixels_natCast (l : List Pixel) (i j : Nat) (hi : i < l.length)
    (hj : j < l.length) :
    ∃ l', swapPixels l (i : Int) (j : Int) = some l' ∧ l'.length = l.length ∧
      ∀ k, l'[k]? = if k = j then l[i]? else if k = i then l[j]? else l[k]? := by
  unfold swapPixels
  have hc : (0 : Int) ≤ i ∧ (i : Int) < l.length ∧ (0 : Int) ≤ j ∧ (j : Int) < l.length := by
    omega
  rw [if_pos hc]
  simp only [Int.toNat_ofNat, List.getElem?_eq_getElem hi, List.getElem?_eq_getElem hj]
  refine ⟨_, rfl, by simp, ?_⟩
  intro k
  rw [List.getElem?_set, List.getElem?_set]
  simp only [List.length_set]
  by_cases h1 : j = k
  · subst h1
    simp [hj]
  · by_cases h2 : i = k
    · subst h2
      have h1' : ¬ i = j := fun e => h1 e.symm
      simp [h1, h1', hi]
    · have h1' : ¬ k = j := fun e => h1 e.symm
      have h2' : ¬ k = i := fun e => h2 e.symm
      simp [h1, h2, h1', h2']

/-- A flat index determines its row and its column. -/
theorem index_eq_iff {w r1 c1 r2 c2 : Nat} (h1 : c1 < w) (h2 : c2 < w) :
    r1 * w + c1 = r2 * w + c2 ↔ r1 = r2 ∧ c1 = c2 := by
  constructor
  · intro h
    rcases Nat.lt_trichotomy r1 r2 with hlt | heq | hgt
    · have := Nat.mul_le_mul_right w (Nat.succ_le_of_lt hlt)
      rw [Nat.succ_mul] at this
      omega
    · subst heq
      exact ⟨rfl, by omega⟩
    · have := Nat.mul_le_mul_right w (Nat.succ_le_of_lt hgt)
      rw [Nat.succ_mul] at this
      omega
  · rintro ⟨rfl, rfl⟩
    rfl

/-- A position of a row below `h` lies inside a buffer of `w * h` pixels. -/
theorem index_lt {w h row col : Nat} (hr : row < h) (hc : col < w) : row * w + col < w * h := by
  have := Nat.mul_le_mul_right w (Nat.succ_le_of_lt hr)
  rw [Nat.succ_mul, Nat.mul_comm h w] at this
  omega

theorem tdiv_two_toNat (w : Nat) : Int.tdiv (w : Int) 2 = ((w / 2 : Nat) : Int) := by
  rw [Int.tdiv_eq_ediv (by omega) (by omega)]
  omega

/-! ## Horizontal flip (C3, C9) -/

/-- The inner loop of `flipHorizontally` on row `y` mirrors that row and keeps the others. -/
theorem flipHorizontally_row (w h y : Nat) (hy : y < h) (s0 : List Pixel)
    (hlen : s0.length = w * h) :
    ∃ s, forLoop (Int.tdiv (w : Int) 2) (fun pixels x =>
        swapPixels pixels ((y : Int) * (w : Int) + x)
          ((y : Int) * (w : Int) + ((w : Int) - 1 - x))) s0 = some s ∧
      s.length = w * h ∧
      ∀ row col, col < w →
        s[row * w + col]? = if row = y then s0[row * w + (w - 1 - col)]? else s0[row * w + col]? := by
  rw [tdiv_two_toNat]
  obtain ⟨s, hs, hl, hinv⟩ := forLoop_invariant (w / 2)
    (fun pixels x => swapPixels pixels ((y : Int) * (w : Int) + x)
          ((y : Int) * (w : Int) + ((w : Int) - 1 - x)))
    (fun k s => s.length = w * h ∧ ∀ row col, col < w →
        s[row * w + col]? = if row = y ∧ (col < k ∨ w - k ≤ col)
          then s0[row * w + (w - 1 - col)]? else s0[row * w + col]?)
    s0 ⟨hlen, by
      intro row col hc
      have : ¬ (row = y ∧ (col < 0 ∨ w - 0 ≤ col)) := by omega
      rw [if_neg this]⟩
    (by
      intro k s hk ⟨hsl, hs⟩
      have hkw : k < w := by omega
      have e1 : (y : Int) * (w : Int) + (k : Int) = ((y * w + k : Nat) : Int) := by omega
      have e2 : (y : Int) * (w : Int) + ((w : Int) - 1 - (k : Int))
          = ((y * w + (w - 1 - k) : Nat) : Int) := by omega
      have hi : y * w + k < s.length := by rw [hsl]; exact index_lt hy hkw
      have hj : y * w + (w - 1 - k) < s.length := by rw [hsl]; exact index_lt hy (by omega)
      obtain ⟨s', hs', hl', hget⟩ := swapPixels_natCast s _ _ hi hj
      refine ⟨s', by simp only [e1, e2]; exact hs', by omega, ?_⟩
      intro row col hc
      simp only [hget, index_eq_iff hc (by omega : w - 1 - k < w), index_eq_iff hc hkw]
      rw [hs y k hkw, hs y (w - 1 - k) (by omega), hs row col hc]
      by_cases hr : row = y
      · subst hr
        simp only [true_and]
        split_ifs <;> first | rfl | (exfalso; omega) | (congr 1; omega)
      · simp only [hr, false_and, if_false])
  refine ⟨s, hs, hl, ?_⟩
  intro row col hc
  rw [hinv row col hc]
  by_cases hr : row = y
  · subst hr
    simp only [true_and]
    split_ifs <;> first | rfl | (congr 1; omega)
  · simp only [hr, false_and, if_false]

/-- On a buffer of `w * h` pixels `flipHorizontally` does not panic and mirrors every row. -/
theorem flipHorizontally_get (w h : Nat) (p : List Pixel) (hlen : p.length = w * h) :
    ∃ q, flipHorizontally p (w : Int) (h : Int) = some q ∧ q.length = w * h ∧
      ∀ row col, col < w → q[row * w + col]? = p[row * w + (w - 1 - col)]? := by
  unfold flipHorizontally
  obtain ⟨q, hq, hl, hinv⟩ := forLoop_invariant h
    (fun pixels y => forLoop (Int.tdiv (w : Int) 2) (fun pixels x =>
      swapPixels pixels (y * (w : Int) + x) (y * (w : Int) + ((w : Int) - 1 - x))) pixels)
    (fun y s => s.length = w * h ∧ ∀ row col, col < w →
        s[row * w + col]? = if row < y then p[row * w + (w - 1 - col)]? else p[row * w + col]?)
    p ⟨hlen, by intro row col _; simp⟩
    (by
      intro y s hy ⟨hsl, hs⟩
      obtain ⟨s', hs', hl', hget⟩ := flipHorizontally_row w h y hy s hsl
      refine ⟨s', hs', hl', ?_⟩
      intro row col hc
      rw [hget row col hc, hs row (w - 1 - col) (by omega), hs row col hc]
      by_cases hr : row = y
      · subst hr
        simp
      · have e : (row < y + 1) = (row < y) := by
          apply propext
          omega
        simp only [hr, if_false, e])
  refine ⟨q, hq, hl, ?_⟩
  intro row col hc
  rw [hinv row col hc]
  split
  · rfl
  · have h1 : p.length ≤ row * w + col := by
      have := Nat.mul_le_mul_right w (by omega : h ≤ row)
      rw [Nat.mul_comm h w] at this
      omega
    have h2 : p.length ≤ row * w + (w - 1 - col) := by
      have := Nat.mul_le_mul_right w (by omega : h ≤ row)
      rw [Nat.mul_comm h w] at this
      omega
    rw [List.getElem?_eq_none h1, List.getElem?_eq_none h2]

/-- Every position of a buffer of `w * h` pixels with `0 < w` is a row and a column. -/
theorem index_split (w n : Nat) (hw : 0 < w) : ∃ row col, col < w ∧ n = row * w + col :=
  ⟨n / w, n % w, Nat.mod_lt _ hw, by rw [Nat.mul_comm]; exact (Nat.div_add_mod n w).symm⟩

/-- C3: for every width and height (in particular at least 1) and every buffer `p` of
width*height pixels, `flipHorizontally` returns a buffer `q` of the same length in which the pixel at
row `row`, column `col` is the pixel of `p` at row `row`, column `width-1-col`; the 2x1
buffer [255,0,0],[0,255,0] becomes [0,255,0],[255,0,0]. -/
theorem flipHorizontally_reverses_rows (w h : Nat) (p : List Pixel)
    (hlen : p.length = w * h) :
    (∃ q, flipHorizontally p (w : Int) (h : Int) = some q ∧ q.length = p.length ∧
      ∀ row col, row < h → col < w →
        ∃ px, p[row * w + (w - 1 - col)]? = some px ∧ q[row * w + col]? = some px) ∧
    flipHorizontally [⟨255, 0, 0⟩, ⟨0, 255, 0⟩] 2 1 = some [⟨0, 255, 0⟩, ⟨255, 0, 0⟩] := by
  refine ⟨?_, by decide⟩
  obtain ⟨q, hq, hl, hget⟩ := flipHorizontally_get w h p hlen
  refine ⟨q, hq, by omega, ?_⟩
  intro row col hr hc
  have hlt : row * w + (w - 1 - col) < p.length := by
    rw [hlen]
    exact index_lt hr (by omega)
  exact ⟨p[row * w + (w - 1 - col)], List.getElem?_eq_getElem hlt, by
    rw [hget row col hc, List.getElem?_eq_getElem hlt]⟩

/-- C3 on a 3x2 buffer. -/
theorem flipHorizontally_reverses_rows_witness :
    (∃ q, flipHorizontally [⟨1, 1, 1⟩, ⟨2, 2, 2⟩, ⟨3, 3, 3⟩, ⟨4, 4, 4⟩, ⟨5, 5, 5⟩, ⟨6, 6, 6⟩]
        ((3 : Nat) : Int) ((2 : Nat) : Int) = some q ∧
      q.length = [(⟨1, 1, 1⟩ : Pixel), ⟨2, 2, 2⟩, ⟨3, 3, 3⟩, ⟨4, 4, 4⟩, ⟨5, 5, 5⟩,
        ⟨6, 6, 6⟩].length ∧
      ∀ row col, row < 2 → col < 3 →
        ∃ px, [(⟨1, 1, 1⟩ : Pixel), ⟨2, 2, 2⟩, ⟨3, 3, 3⟩, ⟨4, 4, 4⟩, ⟨5, 5, 5⟩,
            ⟨6, 6, 6⟩][row * 3 + (3 - 1 - col)]? = some px ∧
          q[row * 3 + col]? = some px) ∧
    flipHorizontally [⟨255, 0, 0⟩, ⟨0, 255, 0⟩] 2 1 = some [⟨0, 255, 0⟩, ⟨255, 0, 0⟩] :=
  flipHorizontally_reverses_rows 3 2
    [⟨1, 1, 1⟩, ⟨2, 2, 2⟩, ⟨3, 3, 3⟩, ⟨4, 4, 4⟩, ⟨5, 5, 5⟩, ⟨6, 6, 6⟩] (by decide)

/-- C9: for every width and height (in particular at least 1, odd or even) and every
buffer `p` of width*height pixels, flipping horizontally twice gives `p` back. -/
theorem flipHorizontally_involution (w h : Nat) (p : List Pixel)
    (hlen : p.length = w * h) :
    (flipHorizontally p (w : Int) (h : Int)).bind
      (fun q => flipHorizontally q (w : Int) (h : Int)) = some p := by
  obtain ⟨q, hq, hl, hget⟩ := flipHorizontally_get w h p hlen
  obtain ⟨q2, hq2, hl2, hget2⟩ := flipHorizontally_get w h q hl
  rw [hq, Option.some_bind, hq2]
  congr 1
  rcases Nat.eq_zero_or_pos w with hw | hw
  · subst hw
    rw [List.eq_nil_of_length_eq_zero (by omega : q2.length = 0),
      List.eq_nil_of_length_eq_zero (by omega : p.length = 0)]
  · apply List.ext_getElem?
    intro n
    obtain ⟨row, col, hc, rfl⟩ := index_split w n hw
    rw [hget2 row col hc, hget row (w - 1 - col) (by omega)]
    congr 2
    omega

/-- C9 on a buffer of odd width 3 and height 2. -/
theorem flipHorizontally_involution_witness :
    (flipHorizontally [⟨1, 1, 1⟩, ⟨2, 2, 2⟩, ⟨3, 3, 3⟩, ⟨4, 4, 4⟩, ⟨5, 5, 5⟩, ⟨6, 6, 6⟩]
        ((3 : Nat) : Int) ((2 : Nat) : Int)).bind
      (fun q => flipHorizontally q ((3 : Nat) : Int) ((2 : Nat) : Int))
      = some [⟨1, 1, 1⟩, ⟨2, 2, 2⟩, ⟨3, 3, 3⟩, ⟨4, 4, 4⟩, ⟨5, 5, 5⟩, ⟨6, 6, 6⟩] :=
  flipHorizontally_involution 3 2
    [⟨1, 1, 1⟩, ⟨2, 2, 2⟩, ⟨3, 3, 3⟩, ⟨4, 4, 4⟩, ⟨5, 5, 5⟩, ⟨6, 6, 6⟩] (by decide)

/-! ## Vertical flip (C4, C10) -/

/-- The inner loop of `flipVertically` for row `y` of the upper half exchanges that row with
row `h - 1 - y` and keeps the others. -/
theorem flipVertically_row (w h y : Nat) (hy : y < h / 2) (s0 : List Pixel)
    (hlen : s0.length = w * h) :
    ∃ s, forLoop (w : Int) (fun pixels x =>
        swapPixels pixels ((y : Int) * (w : Int) + x)
          (((h : Int) - 1 - (y : Int)) * (w : Int) + x)) s0 = some s ∧
      s.length = w * h ∧
      ∀ row col, col < w →
        s[row * w + col]? = if row = y ∨ row = h - 1 - y
          then s0[(h - 1 - row) * w + col]? else s0[row * w + col]? := by
  have eyy : h - 1 - (h - 1 - y) = y := by omega
  obtain ⟨s, hs, hl, hinv⟩ := forLoop_invariant w
    (fun pixels x => swapPixels pixels ((y : Int) * (w : Int) + x)
          (((h : Int) - 1 - (y : Int)) * (w : Int) + x))
    (fun k s => s.length = w * h ∧ ∀ row col, col < w →
        s[row * w + col]? = if (row = y ∨ row = h - 1 - y) ∧ col < k
          then s0[(h - 1 - row) * w + col]? else s0[row * w + col]?)
    s0 ⟨hlen, by intro row col _; simp⟩
    (by
      intro k s hk ⟨hsl, hs⟩
      have e0 : (h : Int) - 1 - (y : Int) = ((h - 1 - y : Nat) : Int) := by omega
      have e1 : (y : Int) * (w : Int) + (k : Int) = ((y * w + k : Nat) : Int) := by
        push_cast
        rfl
      have e2 : ((h : Int) - 1 - (y : Int)) * (w : Int) + (k : Int)
          = (((h - 1 - y) * w + k : Nat) : Int) := by
        rw [e0]
        push_cast
        rfl
      have hi : y * w + k < s.length := by rw [hsl]; exact index_lt (by omega) hk
      have hj : (h - 1 - y) * w + k < s.length := by rw [hsl]; exact index_lt (by omega) hk
      obtain ⟨s', hs', hl', hget⟩ := swapPixels_natCast s _ _ hi hj
      refine ⟨s', by simp only [e1, e2]; exact hs', by omega, ?_⟩
      intro row col hc
      simp only [hget, index_eq_iff hc hk]
      rw [hs y k hk, hs (h - 1 - y) k hk, hs row col hc]
      by_cases hr : row = y
      · subst hr
        have hne : ¬ row = h - 1 - row := by omega
        simp only [hne, false_and, if_false, true_and, true_or, lt_irrefl, and_false]
        split_ifs <;> first | rfl | (exfalso; omega) | (subst_vars; rfl)
      · by_cases hr2 : row = h - 1 - y
        · subst hr2
          simp only [eyy, hr, false_and, if_false, true_and, or_true, true_or, lt_irrefl,
            and_false, false_or]
          split_ifs <;> first | rfl | (exfalso; omega) | (subst_vars; rfl)
        · simp only [hr, hr2, false_and, if_false, false_or])
  refine ⟨s, hs, hl, ?_⟩
  intro row col hc
  rw [hinv row col hc]
  simp only [hc, and_true]

/-- On a buffer of `w * h` pixels `flipVertically` does not panic and reverses the rows. -/
theorem flipVertically_get (w h : Nat) (p : List Pixel) (hlen : p.length = w * h) :
    ∃ q, flipVertically p (w : Int) (h : Int) = some q ∧ q.length = w * h ∧
      ∀ row col, row < h → col < w → q[row * w + col]? = p[(h - 1 - row) * w + col]? := by
  unfold flipVertically
  rw [tdiv_two_toNat]
  obtain ⟨q, hq, hl, hinv⟩ := forLoop_invariant (h / 2)
    (fun pixels y => forLoop (w : Int) (fun pixels x =>
      swapPixels pixels (y * (w : Int) + x) (((h : Int) - 1 - y) * (w : Int) + x)) pixels)
    (fun y s => s.length = w * h ∧ ∀ row col, col < w →
        s[row * w + col]? = if row < y ∨ (h - y ≤ row ∧ row < h)
          then p[(h - 1 - row) * w + col]? else p[row * w + col]?)
    p ⟨hlen, by
      intro row col _
      have : ¬ (row < 0 ∨ (h - 0 ≤ row ∧ row < h)) := by omega
      rw [if_neg this]⟩
    (by
      intro y s hy ⟨hsl, hs⟩
      obtain ⟨s', hs', hl', hget⟩ := flipVertically_row w h y hy s hsl
      refine ⟨s', hs', hl', ?_⟩
      intro row col hc
      rw [hget row col hc, hs (h - 1 - row) col hc, hs row col hc]
      by_cases hr : row = y
      · subst hr
        have a1 : ¬ (h - 1 - row < row ∨ (h - row ≤ h - 1 - row ∧ h - 1 - row < h)) := by omega
        have a2 : (row < row + 1 ∨ (h - (row + 1) ≤ row ∧ row < h)) := by omega
        simp only [true_or, if_true, a1, if_false, a2]
      · by_cases hr2 : row = h - 1 - y
        · subst hr2
          have eyy : h - 1 - (h - 1 - y) = y := by omega
          have a1 : ¬ (y < y ∨ (h - y ≤ y ∧ y < h)) := by omega
          have a2 : (h - 1 - y < y + 1 ∨ (h - (y + 1) ≤ h - 1 - y ∧ h - 1 - y < h)) := by
            omega
          simp only [or_true, if_true, eyy, a1, if_false, a2]
        · have e : (row < y + 1 ∨ (h - (y + 1) ≤ row ∧ row < h))
              = (row < y ∨ (h - y ≤ row ∧ row < h)) := by
            apply propext
            omega
          simp only [hr, hr2, false_or, if_false, e])
  refine ⟨q, hq, hl, ?_⟩
  intro row col hr hc
  rw [hinv row col hc]
  split
  · rfl
  · have e : h - 1 - row = row := by omega
    rw [e]

/-- C4: for every width and height (in particular at least 1) and every buffer `p` of
width*height pixels, `flipVertically` returns a buffer `q` of the same length in which the
pixel at row `row`, column `col` is the pixel of `p` at row `height-1-row`, column `col`. -/
theorem flipVertically_reverses_row_order (w h : Nat) (p : List Pixel)
    (hlen : p.length = w * h) :
    ∃ q, flipVertically p (w : Int) (h : Int) = some q ∧ q.length = p.length ∧
      ∀ row col, row < h → col < w →
        ∃ px, p[(h - 1 - row) * w + col]? = some px ∧ q[row * w + col]? = some px := by
  obtain ⟨q, hq, hl, hget⟩ := flipVertically_get w h p hlen
  refine ⟨q, hq, by omega, ?_⟩
  intro row col hr hc
  have hlt : (h - 1 - row) * w + col < p.length := by
    rw [hlen]
    exact index_lt (by omega) hc
  exact ⟨p[(h - 1 - row) * w + col], List.getElem?_eq_getElem hlt, by
    rw [hget row col hr hc, List.getElem?_eq_getElem hlt]⟩

/-- C4 on a 2x3 buffer. -/
theorem flipVertically_reverses_row_order_witness :
    ∃ q, flipVertically [⟨1, 1, 1⟩, ⟨2, 2, 2⟩, ⟨3, 3, 3⟩, ⟨4, 4, 4⟩, ⟨5, 5, 5⟩, ⟨6, 6, 6⟩]
        ((2 : Nat) : Int) ((3 : Nat) : Int) = some q ∧
      q.length = [(⟨1, 1, 1⟩ : Pixel), ⟨2, 2, 2⟩, ⟨3, 3, 3⟩, ⟨4, 4, 4⟩, ⟨5, 5, 5⟩,
        ⟨6, 6, 6⟩].length ∧
      ∀ row col, row < 3 → col < 2 →
        ∃ px, [(⟨1, 1, 1⟩ : Pixel), ⟨2, 2, 2⟩, ⟨3, 3, 3⟩, ⟨4, 4, 4⟩, ⟨5, 5, 5⟩,
            ⟨6, 6, 6⟩][(3 - 1 - row) * 2 + col]? = some px ∧
          q[row * 2 + col]? = some px :=
  flipVertically_reverses_row_order 2 3
    [⟨1, 1, 1⟩, ⟨2, 2, 2⟩, ⟨3, 3, 3⟩, ⟨4, 4, 4⟩, ⟨5, 5, 5⟩, ⟨6, 6, 6⟩] (by decide)

/-- C10: for every width and height (in particular at least 1, odd or even) and every
buffer `p` of width*height pixels, flipping vertically twice gives `p` back. -/
theorem flipVertically_involution (w h : Nat) (p : List Pixel)
    (hlen : p.length = w * h) :
    (flipVertically p (w : Int) (h : Int)).bind
      (fun q => flipVertically q (w : Int) (h : Int)) = some p := by
  obtain ⟨q, hq, hl, hget⟩ := flipVertically_get w h p hlen
  obtain ⟨q2, hq2, hl2, hget2⟩ := flipVertically_get w h q hl
  rw [hq, Option.some_bind, hq2]
  congr 1
  rcases Nat.eq_zero_or_pos w with hw | hw
  · subst hw
    rw [List.eq_nil_of_length_eq_zero (by omega : q2.length = 0),
      List.eq_nil_of_length_eq_zero (by omega : p.length = 0)]
  · apply List.ext_getElem?
    intro n
    obtain ⟨row, col, hc, rfl⟩ := index_split w n hw
    by_cases hr : row < h
    · rw [hget2 row col hr hc, hget (h - 1 - row) col (by omega) hc]
      have e : h - 1 - (h - 1 - row) = row := by omega
      rw [e]
    · have hge : w * h ≤ row * w + col := by
        have := Nat.mul_le_mul_right w (by omega : h ≤ row)
        rw [Nat.mul_comm h w] at this
        omega
      rw [List.getElem?_eq_none (by omega), List.getElem?_eq_none (by omega)]

/-- C10 on a buffer of width 2 and odd height 3. -/
theorem flipVertically_involution_witness :
    (flipVertically [⟨1, 1, 1⟩, ⟨2, 2, 2⟩, ⟨3, 3, 3⟩, ⟨4, 4, 4⟩, ⟨5, 5, 5⟩, ⟨6, 6, 6⟩]
        ((2 : Nat) : Int) ((3 : Nat) : Int)).bind
      (fun q => flipVertically q ((2 : Nat) : Int) ((3 : Nat) : Int))
      = some [⟨1, 1, 1⟩, ⟨2, 2, 2⟩, ⟨3, 3, 3⟩, ⟨4, 4, 4⟩, ⟨5, 5, 5⟩, ⟨6, 6, 6⟩] :=
  flipVertically_involution 2 3
    [⟨1, 1, 1⟩, ⟨2, 2, 2⟩, ⟨3, 3, 3⟩, ⟨4, 4, 4⟩, ⟨5, 5, 5⟩, ⟨6, 6, 6⟩] (by decide)

/-! ## Filter order of `main` (C2) -/

/-- With dimensions whose product is the length, `flipHorizontally` does not panic and keeps
the length, whatever the signs of the dimensions. -/
theorem flipHorizontally_total (p : List Pixel) (width height : Int)
    (hlen : (p.length : Int) = width * height) :
    ∃ q, flipHorizontally p width height = some q ∧ q.length = p.length := by
  by_cases hh : height ≤ 0
  · exact ⟨p, forLoop_of_nonpos _ hh _ _, rfl⟩
  · by_cases hw : width ≤ 1
    · refine ⟨p, ?_, rfl⟩
      unfold flipHorizontally
      have hb : Int.tdiv width 2 ≤ 0 := by
        rcases Int.lt_or_le width 0 with hneg | hpos
        · have e : width = -(-width) := by omega
          rw [e, Int.neg_tdiv, Int.tdiv_eq_ediv (by omega) (by omega)]
          omega
        · rw [Int.tdiv_eq_ediv hpos (by omega)]
          omega
      obtain ⟨q, hq, hinv⟩ := forLoop_invariant height.toNat
        (fun pixels y => forLoop (Int.tdiv width 2) (fun pixels x =>
          swapPixels pixels (y * width + x) (y * width + (width - 1 - x))) pixels)
        (fun _ s => s = p) p rfl
        (by
          intro k s _ hs
          exact ⟨s, forLoop_of_nonpos _ hb _ _, hs⟩)
      rw [Int.toNat_of_nonneg (by omega), hinv] at hq
      exact hq
    · obtain ⟨w, rfl⟩ := Int.eq_ofNat_of_zero_le (by omega : 0 ≤ width)
      obtain ⟨h, rfl⟩ := Int.eq_ofNat_of_zero_le (by omega : 0 ≤ height)
      have hl : p.length = w * h := by exact_mod_cast hlen
      obtain ⟨q, hq, hql, _⟩ := flipHorizontally_get w h p hl
      exact ⟨q, hq, by omega⟩

/-- With dimensions whose product is the length, `flipVertically` does not panic and keeps
the length, whatever the signs of the dimensions. -/
theorem flipVertically_total (p : List Pixel) (width height : Int)
    (hlen : (p.length : Int) = width * height) :
    ∃ q, flipVertically p width height = some q ∧ q.length = p.length := by
  by_cases hh : height ≤ 1
  · refine ⟨p, ?_, rfl⟩
    have hb : Int.tdiv height 2 ≤ 0 := by
      rcases Int.lt_or_le height 0 with hneg | hpos
      · have e : height = -(-height) := by omega
        rw [e, Int.neg_tdiv, Int.tdiv_eq_ediv (by omega) (by omega)]
        omega
      · rw [Int.tdiv_eq_ediv hpos (by omega)]
        omega
    exact forLoop_of_nonpos _ hb _ _
  · have hw : 0 ≤ width := by
      by_contra hneg
      have : width * height < 0 := Int.mul_neg_of_neg_of_pos (by omega) (by omega)
      omega
    obtain ⟨w, rfl⟩ := Int.eq_ofNat_of_zero_le hw
    obtain ⟨h, rfl⟩ := Int.eq_ofNat_of_zero_le (by omega : 0 ≤ height)
    have hl : p.length = w * h := by exact_mod_cast hlen
    obtain ⟨q, hq, hql, _⟩ := flipVertically_get w h p hl
    exact ⟨q, hq, by omega⟩

/-- The encoder loop does not panic on a non-zero width. -/
theorem writePixels_of_width_ne_zero (width : Int) (hw : width ≠ 0) (pixels : List Pixel)
    (i : Nat) : ∃ out, writePixels width i pixels = some out := by
  induction pixels generalizing i with
  | nil => exact ⟨[], rfl⟩
  | cons px rest ih =>
    obtain ⟨out, hout⟩ := ih (i + 1)
    simp only [writePixels, hw, if_false, hout]
    exact ⟨_, rfl⟩

/-- The encoder does not panic on a buffer whose length is width*height. -/
theorem writePPMFile_total (p : List Pixel) (width height : Int)
    (hlen : (p.length : Int) = width * height) :
    ∃ out, writePPMFile p width height = some out := by
  unfold writePPMFile
  by_cases hw : width = 0
  · subst hw
    have hp : p = [] := List.eq_nil_of_length_eq_zero (by omega)
    subst hp
    exact ⟨_, rfl⟩
  · obtain ⟨body, hb⟩ := writePixels_of_width_ne_zero width hw p 0
    rw [hb]
    exact ⟨_, rfl⟩

/-- The code of the filter section agrees with the ordered stages of the specification. -/
theorem applyFilters_eq_runStages (f : Flags) (p : List Pixel) (width height : Int) :
    applyFilters f p width height = runStages (pipelineStages f width height) p := by
  unfold applyFilters runStages pipelineStages
  simp only [List.foldl_cons, List.foldl_nil, Option.some_bind]
  cases hH : (if f.flipH then flipHorizontally p width height else some p) with
  | none => simp
  | some p1 =>
    simp only [Option.some_bind]
    cases hV : (if f.flipV then flipVertically p1 width height else some p1) with
    | none => simp
    | some p2 =>
      simp only [Option.some_bind]
      cases f.grayscale <;> cases f.invert <;> cases f.extreme <;>
        by_cases hf : f.flatten = [] <;> simp [hf]

/-- C2: for every pixel buffer whose length is width*height and every filter selection, the
filter section of `main` does not panic and the buffer that `main` hands to the encoder is
the result of running the six stages flip-horizontal, flip-vertical, grayscale, invert,
flatten (selected iff the flatten string is non-empty), extreme-contrast in exactly that
order, each unselected stage being the identity; that buffer has the length of the input and
is what `main` writes. -/
theorem main_applies_filters_in_fixed_order (f : Flags) (p : List Pixel) (width height : Int)
    (hlen : (p.length : Int) = width * height) :
    ∃ q, runStages (pipelineStages f width height) p = some q ∧
      applyFilters f p width height = some q ∧ q.length = p.length ∧
      ∃ out, writePPMFile q width height = some out ∧
        ∀ content, readPPMFile content = .ok (p, width, height) →
          main f content = .ok out := by
  have key : ∃ q, applyFilters f p width height = some q ∧ q.length = p.length := by
    unfold applyFilters
    obtain ⟨p1, h1, l1⟩ : ∃ p1, (if f.flipH then flipHorizontally p width height else some p)
        = some p1 ∧ p1.length = p.length := by
      by_cases hH : f.flipH
      · simp only [hH, if_true]
        exact flipHorizontally_total p width height hlen
      · simp only [hH]
        exact ⟨p, rfl, rfl⟩
    obtain ⟨p2, h2, l2⟩ : ∃ p2, (if f.flipV then flipVertically p1 width height else some p1)
        = some p2 ∧ p2.length = p1.length := by
      by_cases hV : f.flipV
      · simp only [hV, if_true]
        exact flipVertically_total p1 width height (by rw [l1]; exact hlen)
      · simp only [hV]
        exact ⟨p1, rfl, rfl⟩
    rw [h1]
    simp only [h2]
    refine ⟨_, rfl, ?_⟩
    rw [← l1, ← l2]
    cases f.grayscale <;> cases f.invert <;> cases f.extreme <;>
      by_cases hf : f.flatten = [] <;>
      simp [hf, convertToGrayscale, invertColors, flattenColors, applyExtremeContrast]
  obtain ⟨q, hq, hl⟩ := key
  obtain ⟨out, hout⟩ := writePPMFile_total q width height (by rw [hl]; exact hlen)
  refine ⟨q, by rw [← applyFilters_eq_runStages]; exact hq, hq, hl, out, hout, ?_⟩
  intro content hc
  simp only [main, hc, hq, hout]

/-- C2 on a 2x1 buffer with every filter selected. -/
theorem main_applies_filters_in_fixed_order_witness :
    ∃ q, runStages (pipelineStages ⟨true, true, true, true, ascii "g", true⟩ 2 1)
        [⟨255, 0, 0⟩, ⟨0, 255, 0⟩] = some q ∧
      applyFilters ⟨true, true, true, true, ascii "g", true⟩ [⟨255, 0, 0⟩, ⟨0, 255, 0⟩] 2 1
        = some q ∧
      q.length = [(⟨255, 0, 0⟩ : Pixel), ⟨0, 255, 0⟩].length ∧
      ∃ out, writePPMFile q 2 1 = some out ∧
        ∀ content, readPPMFile content = .ok ([⟨255, 0, 0⟩, ⟨0, 255, 0⟩], 2, 1) →
          main ⟨true, true, true, true, ascii "g", true⟩ content = .ok out :=
  main_applies_filters_in_fixed_order ⟨true, true, true, true, ascii "g", true⟩
    [⟨255, 0, 0⟩, ⟨0, 255, 0⟩] 2 1 (by decide)

/-! ## Scanning the text that the encoder writes

The encoder writes words of ASCII bytes that are no spaces, each followed by a blank or a
line feed.  On such text `Scan` returns the words one after the other. -/

theorem decodeRune_ascii (b : Nat) (rest : List Nat) (hb : b < 128) :
    decodeRune (b :: rest) = (b, 1) := by
  have hl : leadInfo b = none := by
    unfold leadInfo
    split_ifs <;> first | rfl | (exfalso; omega)
  simp only [decodeRune, hl]
  rw [if_pos (by omega)]

theorem isSpace_separator (sp : Nat) (hsp : sp = 32 ∨ sp = 10) : isSpace sp = true := by
  rcases hsp with rfl | rfl <;> decide

theorem skipSpaces_plain (fuel b : Nat) (rest : List Nat) (hb : b < 128)
    (hs : isSpace b = false) : skipSpaces fuel (b :: rest) = 0 := by
  cases fuel with
  | zero => rfl
  | succ n => simp [skipSpaces, decodeRune_ascii b rest hb, hs]

theorem skipSpaces_separator (fuel sp : Nat) (rest : List Nat) (hsp : sp = 32 ∨ sp = 10) :
    skipSpaces (fuel + 1) (sp :: rest) = 1 + skipSpaces fuel rest := by
  have hb : sp < 128 := by omega
  simp [skipSpaces, decodeRune_ascii sp rest hb, isSpace_separator sp hsp]

theorem findSpace_word (w : List Nat) (hw : ∀ b ∈ w, b < 128 ∧ isSpace b = false)
    (sp : Nat) (hsp : sp = 32 ∨ sp = 10) (rest : List Nat) (fuel : Nat)
    (hf : w.length < fuel) :
    findSpace fuel (w ++ sp :: rest) = some (w.length, 1) := by
  induction w generalizing fuel with
  | nil =>
    obtain ⟨n, rfl⟩ : ∃ n, fuel = n + 1 := ⟨fuel - 1, by simp at hf; omega⟩
    have hb : sp < 128 := by omega
    simp [findSpace, decodeRune_ascii sp rest hb, isSpace_separator sp hsp]
  | cons b w ih =>
    obtain ⟨n, rfl⟩ : ∃ n, fuel = n + 1 := ⟨fuel - 1, by simp at hf; omega⟩
    obtain ⟨hb, hs⟩ := hw b (by simp)
    have ih' := ih (fun c hc => hw c (by simp [hc])) n (by simp at hf; omega)
    simp [findSpace, decodeRune_ascii b _ hb, hs, ih']

/-- `ScanWords` on a buffer that starts with a word followed by a separator. -/
theorem ScanWords_word (w : List Nat) (hne : w ≠ [])
    (hw : ∀ b ∈ w, b < 128 ∧ isSpace b = false) (sp : Nat) (hsp : sp = 32 ∨ sp = 10)
    (rest : List Nat) (atEOF : Bool) :
    ScanWords (w ++ sp :: rest) atEOF = (w.length + 1, some w) := by
  obtain ⟨b, t, rfl⟩ := List.exists_cons_of_ne_nil hne
  obtain ⟨hb, hs⟩ := hw b (by simp)
  have h0 : skipSpaces (b :: t ++ sp :: rest).length (b :: t ++ sp :: rest) = 0 :=
    skipSpaces_plain _ b _ hb hs
  have h1 := findSpace_word (b :: t) hw sp hsp rest (b :: t ++ sp :: rest).length
    (by simp)
  simp only [ScanWords, h0, List.drop_zero, h1]
  simp

/-- `Scan` returns a word that stands at the start of the input before a separator. -/
theorem Scan_word (w : List Nat) (hne : w ≠ [])
    (hw : ∀ b ∈ w, b < 128 ∧ isSpace b = false) (hlen : w.length < maxScanTokenSize)
    (sp : Nat) (hsp : sp = 32 ∨ sp = 10) (rest token : List Nat) :
    Scanner.Scan { input := w ++ sp :: rest, token := token, err := false }
      = (true, { input := rest, token := w, err := false }) := by
  obtain ⟨b, t, rfl⟩ := List.exists_cons_of_ne_nil hne
  obtain ⟨hb, hs⟩ := hw b (by simp)
  have h0 : skipSpaces (b :: t ++ sp :: rest).length (b :: t ++ sp :: rest) = 0 :=
    skipSpaces_plain _ b _ hb hs
  have htake : List.take maxScanTokenSize (b :: t ++ sp :: rest)
      = (b :: t) ++ sp :: List.take (maxScanTokenSize - (b :: t).length - 1) rest := by
    rw [List.take_append_eq_append_take, List.take_of_length_le (by omega)]
    obtain ⟨m, hm⟩ : ∃ m, maxScanTokenSize - (b :: t).length = m + 1 :=
      ⟨maxScanTokenSize - (b :: t).length - 1, by omega⟩
    rw [hm, List.take_succ_cons]
    simp
  simp only [Scanner.Scan, Bool.false_eq_true, if_false, h0, List.drop_zero, htake,
    ScanWords_word (b :: t) hne hw sp hsp]
  simp

/-- `Scan` passes over line feeds in front of the input. -/
theorem Scan_skip (ws : List Nat) (hws : ∀ b ∈ ws, b = 10) (input token : List Nat) :
    Scanner.Scan { input := ws ++ input, token := token, err := false }
      = Scanner.Scan { input := input, token := token, err := false } := by
  induction ws with
  | nil => rfl
  | cons b ws ih =>
    have hb : b = 10 := hws b (by simp)
    subst hb
    rw [← ih (fun c hc => hws c (by simp [hc]))]
    simp only [Scanner.Scan, Bool.false_eq_true, if_false, List.cons_append, List.length_cons,
      skipSpaces_separator _ 10 _ (Or.inr rfl)]
    simp [Nat.add_comm 1]

/-! ## Decimal text of an integer -/

theorem isSpace_digit (b : Nat) (h : (48 ≤ b ∧ b ≤ 57) ∨ b = 45) : isSpace b = false := by
  unfold isSpace
  rw [if_pos (by omega)]
  simp only [decide_eq_false_iff_not]
  omega

theorem fmtNatAux_digits (fuel u : Nat) (buf : List Nat) (h : u ≤ fuel) :
    ∀ b ∈ fmtNatAux fuel u buf, (48 ≤ b ∧ b ≤ 57) ∨ b ∈ buf := by
  induction fuel generalizing u buf with
  | zero =>
    intro b hb
    simp only [fmtNatAux, List.mem_cons] at hb
    rcases hb with rfl | hb
    · left; omega
    · right; exact hb
  | succ n ih =>
    intro b hb
    unfold fmtNatAux at hb
    split at hb
    · rcases ih (u / 10) _ (by omega) b hb with hd | hm
      · left; exact hd
      · simp only [List.mem_cons] at hm
        rcases hm with rfl | hm
        · left; omega
        · right; exact hm
    · simp only [List.mem_cons] at hb
      rcases hb with rfl | hb
      · left; omega
      · right; exact hb

theorem fmtNatAux_ne_nil (fuel u : Nat) (buf : List Nat) : fmtNatAux fuel u buf ≠ [] := by
  induction fuel generalizing u buf with
  | zero => simp [fmtNatAux]
  | succ n ih =>
    unfold fmtNatAux
    split
    · exact ih _ _
    · simp

theorem fmtNatAux_length (fuel u : Nat) (buf : List Nat) (k : Nat) (hk : u < 10 ^ (k + 1)) :
    (fmtNatAux fuel u buf).length ≤ buf.length + (k + 1) := by
  induction fuel generalizing u buf k with
  | zero => simp [fmtNatAux]
  | succ n ih =>
    unfold fmtNatAux
    split
    · rename_i hu
      obtain ⟨k', rfl⟩ : ∃ k', k = k' + 1 := by
        cases k with
        | zero => simp at hk; omega
        | succ k' => exact ⟨k', rfl⟩
      have hdiv : u / 10 < 10 ^ (k' + 1) := by
        apply Nat.div_lt_of_lt_mul
        rw [← Nat.pow_succ']
        exact hk
      have := ih (u / 10) ((48 + u % 10) :: buf) k' hdiv
      simp only [List.length_cons] at this
      omega
    · simp

theorem parseDigits_fmtNatAux (fuel u : Nat) (buf : List Nat) (h : u ≤ fuel) :
    parseDigits (fmtNatAux fuel u buf) 0 = parseDigits buf u := by
  induction fuel generalizing u buf with
  | zero =>
    have hu : u = 0 := by omega
    subst hu
    simp [fmtNatAux, parseDigits]
  | succ n ih =>
    unfold fmtNatAux
    split
    · rw [ih (u / 10) _ (by omega)]
      have h1 : 48 ≤ 48 + u % 10 ∧ 48 + u % 10 ≤ 57 := by omega
      have h2 : u / 10 * 10 + (48 + u % 10 - 48) = u := by omega
      simp only [parseDigits, h1, and_self, if_true, h2]
    · have h1 : 48 ≤ 48 + u ∧ 48 + u ≤ 57 := by omega
      simp only [parseDigits, h1, and_self, if_true]
      simp

theorem fmtInt_ne_nil (v : Int) : fmtInt v ≠ [] := by
  unfold fmtInt
  split
  · simp
  · exact fmtNatAux_ne_nil _ _ _

theorem fmtInt_bytes (v : Int) : ∀ b ∈ fmtInt v, b < 128 ∧ isSpace b = false := by
  intro b hb
  have hd : (48 ≤ b ∧ b ≤ 57) ∨ b = 45 := by
    unfold fmtInt at hb
    split at hb
    · simp only [List.mem_cons] at hb
      rcases hb with rfl | hb
      · right; rfl
      · rcases fmtNatAux_digits _ _ [] (Nat.le_refl _) b hb with hd | hm
        · left; exact hd
        · simp at hm
    · rcases fmtNatAux_digits _ _ [] (Nat.le_refl _) b hb with hd | hm
      · left; exact hd
      · simp at hm
  exact ⟨by omega, isSpace_digit b hd⟩

theorem fmtInt_length (v : Int) (hv : isInt v) : (fmtInt v).length < maxScanTokenSize := by
  unfold isInt minInt maxInt at hv
  have hb : ∀ u : Nat, u ≤ 2 ^ 63 → (fmtNat u).length ≤ 19 := by
    intro u hu
    have := fmtNatAux_length u u [] 18 (by
      have : (2 : Nat) ^ 63 < 10 ^ 19 := by norm_num
      omega)
    simpa [fmtNat] using this
  unfold fmtInt maxScanTokenSize
  split
  · have := hb v.natAbs (by omega)
    simp only [List.length_cons]
    omega
  · have := hb v.toNat (by omega)
    omega

/-- Reading back the decimal text of a Go integer gives the integer. -/
theorem Atoi_fmtInt (v : Int) (hv : isInt v) : Atoi (fmtInt v) = some v := by
  unfold isInt minInt maxInt at hv
  have hparse : ∀ u : Nat, ∃ c t, fmtNat u = c :: t ∧ 48 ≤ c ∧ c ≤ 57 ∧
      parseDigits (c :: t) 0 = some u := by
    intro u
    obtain ⟨c, t, hct⟩ := List.exists_cons_of_ne_nil (fmtNatAux_ne_nil u u [])
    have hc : (48 ≤ c ∧ c ≤ 57) ∨ c ∈ ([] : List Nat) :=
      fmtNatAux_digits u u [] (Nat.le_refl _) c (by rw [hct]; simp)
    have hp := parseDigits_fmtNatAux u u [] (Nat.le_refl _)
    rw [hct] at hp
    refine ⟨c, t, hct, ?_, ?_, ?_⟩
    · rcases hc with h | h
      · exact h.1
      · simp at h
    · rcases hc with h | h
      · exact h.2
      · simp at h
    · rw [hp]
      rfl
  unfold fmtInt
  split
  · rename_i hneg
    obtain ⟨c, t, hct, _, _, hp⟩ := hparse v.natAbs
    rw [hct]
    simp only [Atoi, hp, decide_True, true_or, if_true]
    rw [if_pos (by omega)]
    congr 1
    omega
  · rename_i hpos
    obtain ⟨c, t, hct, hc1, hc2, hp⟩ := hparse v.toNat
    rw [hct]
    have hn1 : ¬ c = 45 := by omega
    have hn2 : ¬ c = 43 := by omega
    simp only [Atoi, hn1, hn2, or_self, if_false, hp, decide_False, Bool.false_eq_true]
    rw [if_pos (by omega)]
    congr 1
    omega

/-- A token that `Atoi` accepts is a value of Go `int`. -/
theorem Atoi_isInt (s : List Nat) (v : Int) (h : Atoi s = some v) : isInt v := by
  unfold isInt minInt maxInt
  cases s with
  | nil => simp [Atoi] at h
  | cons c t =>
    simp only [Atoi] at h
    split at h
    · simp at h
    · split at h
      · simp at h
      · split at h
        · split at h
          · simp only [Option.some.injEq] at h
            omega
          · simp at h
        · split at h
          · simp only [Option.some.injEq] at h
            omega
          · simp at h

/-! ## Decoding the text that the encoder writes -/

theorem scanInt_fmtInt (ws : List Nat) (hws : ∀ b ∈ ws, b = 10) (v : Int) (hv : isInt v)
    (sp : Nat) (hsp : sp = 32 ∨ sp = 10) (rest token : List Nat) :
    scanInt { input := ws ++ (fmtInt v ++ sp :: rest), token := token, err := false }
      = .ok (v, { input := rest, token := fmtInt v, err := false }) := by
  unfold scanInt
  rw [Scan_skip ws hws, Scan_word (fmtInt v) (fmtInt_ne_nil v) (fmtInt_bytes v)
    (fmtInt_length v hv) sp hsp]
  simp only [Atoi_fmtInt v hv, checkError]

theorem readPixel_encoded (ws : List Nat) (hws : ∀ b ∈ ws, b = 10) (px : Pixel)
    (hpx : px.isInt) (rest token : List Nat) :
    readPixel { input := ws ++ (fmtInt px.R ++ 32 :: (fmtInt px.G ++ 32 ::
        (fmtInt px.B ++ 32 :: rest))), token := token, err := false }
      = .ok (px, { input := rest, token := fmtInt px.B, err := false }) := by
  obtain ⟨hR, hG, hB⟩ := hpx
  have h1 := scanInt_fmtInt ws hws px.R hR 32 (Or.inl rfl)
    (fmtInt px.G ++ 32 :: (fmtInt px.B ++ 32 :: rest)) token
  have h2 := scanInt_fmtInt [] (by simp) px.G hG 32 (Or.inl rfl)
    (fmtInt px.B ++ 32 :: rest) (fmtInt px.R)
  have h3 := scanInt_fmtInt [] (by simp) px.B hB 32 (Or.inl rfl) rest (fmtInt px.G)
  simp only [List.nil_append] at h2 h3
  have hr : List.range 3 = [0, 1, 2] := rfl
  simp only [readPixel, hr, List.foldlM_cons, List.foldlM_nil, h1, h2, h3, bind, Except.bind,
    pure, Except.pure]

/-- One step of the encoder loop, read backwards. -/
theorem writePixels_cons (width : Int) (i : Nat) (px : Pixel) (rest : List Pixel)
    (out : List Nat) (h : writePixels width i (px :: rest) = some out) :
    ∃ eol out1, (∀ b ∈ eol, b = 10) ∧ writePixels width (i + 1) rest = some out1 ∧
      out = fmtInt px.R ++ 32 :: (fmtInt px.G ++ 32 :: (fmtInt px.B ++ 32 :: (eol ++ out1))) := by
  simp only [writePixels] at h
  split at h
  · simp at h
  · cases hw : writePixels width (i + 1) rest with
    | none => simp [hw] at h
    | some out1 =>
      simp only [hw, Option.some.injEq] at h
      refine ⟨if Int.tmod ((i : Int) + 1) width = 0 then ascii "\n" else [], out1, ?_, rfl, ?_⟩
      · intro b hb
        split at hb
        · have e : ascii "\n" = [10] := rfl
          rw [e] at hb
          simpa using hb
        · simp at hb
      · rw [← h]
        have e : ascii " " = [32] := rfl
        simp only [e, List.append_assoc, List.singleton_append, List.cons_append,
          List.nil_append]

theorem readRow_encoded (width : Int) (row : List Pixel) (hrow : ∀ px ∈ row, px.isInt)
    (more : List Pixel) (i : Nat) (ws token out : List Nat) (hws : ∀ b ∈ ws, b = 10)
    (hout : writePixels width i (row ++ more) = some out) :
    ∃ ws' out' token', (∀ b ∈ ws', b = 10) ∧
      writePixels width (i + row.length) more = some out' ∧
      readRow row.length { input := ws ++ out, token := token, err := false }
        = .ok (row, { input := ws' ++ out', token := token', err := false }) := by
  induction row generalizing i ws token out with
  | nil => exact ⟨ws, out, token, hws, by simpa using hout, rfl⟩
  | cons px row ih =>
    obtain ⟨eol, out1, heol, hw1, rfl⟩ := writePixels_cons width i px (row ++ more) out hout
    obtain ⟨ws', out', token', hws', hw', hread⟩ :=
      ih (fun q hq => hrow q (by simp [hq])) (i + 1) eol (fmtInt px.B) out1 heol hw1
    refine ⟨ws', out', token', hws', ?_, ?_⟩
    · rw [← hw']
      congr 1
      simp only [List.length_cons]
      omega
    · simp only [List.length_cons, readRow,
        readPixel_encoded ws hws px (hrow px (by simp)) (eol ++ out1) token, hread]

/-- When `make` does not panic: the length is not negative and its bytes are within
`maxAlloc`. -/
theorem makePanics_eq_false_iff (n : Int) :
    makePanics n = false ↔ 0 ≤ n ∧ elemSize * n ≤ maxAlloc := by
  simp only [makePanics, Bool.or_eq_false_iff, decide_eq_false_iff_not, not_lt]

theorem makePanics_of_neg (n : Int) (h : n < 0) : makePanics n = true := by
  simp only [makePanics, Bool.or_eq_true, decide_eq_true_eq]
  exact Or.inl h

theorem readRows_encoded (width cols : Int) (rs : List (List Pixel))
    (hrs : ∀ r ∈ rs, r.length = cols.toNat ∧ ∀ px ∈ r, px.isInt)
    (hcols : rs ≠ [] → makePanics cols = false) (i : Nat) (ws token out : List Nat)
    (hws : ∀ b ∈ ws, b = 10) (hout : writePixels width i rs.flatten = some out) :
    ∃ s', readRows rs.length cols { input := ws ++ out, token := token, err := false }
        = .ok (rs, s') ∧ s'.err = false := by
  induction rs generalizing i ws token out with
  | nil => exact ⟨_, rfl, rfl⟩
  | cons r rs ih =>
    have hc : makePanics cols = false := hcols (by simp)
    obtain ⟨hrl, hrp⟩ := hrs r (by simp)
    rw [List.flatten_cons] at hout
    obtain ⟨ws', out', token', hws', hw', hread⟩ :=
      readRow_encoded width r hrp rs.flatten i ws token out hws hout
    obtain ⟨s', hs', herr⟩ := ih (fun q hq => hrs q (by simp [hq]))
      (fun hne => hcols (by simp)) (i + r.length) ws' token' out' hws' hw'
    refine ⟨s', ?_, herr⟩
    simp only [List.length_cons, readRows, hc, Bool.false_eq_true, if_false, ← hrl, hread, hs']

/-! ## What an accepted input looks like -/

theorem scanInt_isInt (s s' : Scanner) (v : Int) (h : scanInt s = .ok (v, s')) : isInt v := by
  simp only [scanInt] at h
  cases ha : Atoi s.Scan.2.token with
  | none => simp [ha, checkError] at h
  | some val =>
    simp only [ha, checkError, Except.ok.injEq, Prod.mk.injEq] at h
    rw [← h.1]
    exact Atoi_isInt _ _ ha

theorem readPixel_isInt (s s' : Scanner) (px : Pixel) (h : readPixel s = .ok (px, s')) :
    px.isInt := by
  have hr : List.range 3 = [0, 1, 2] := rfl
  simp only [readPixel, hr, List.foldlM_cons, List.foldlM_nil, bind, Except.bind, pure,
    Except.pure] at h
  cases h1 : scanInt s with
  | error e => simp [h1] at h
  | ok r1 =>
    obtain ⟨v1, s1⟩ := r1
    simp only [h1] at h
    cases h2 : scanInt s1 with
    | error e => simp [h2] at h
    | ok r2 =>
      obtain ⟨v2, s2⟩ := r2
      simp only [h2] at h
      cases h3 : scanInt s2 with
      | error e => simp [h3] at h
      | ok r3 =>
        obtain ⟨v3, s3⟩ := r3
        simp only [h3, Except.ok.injEq, Prod.mk.injEq] at h
        rw [← h.1]
        exact ⟨scanInt_isInt _ _ _ h1, scanInt_isInt _ _ _ h2, scanInt_isInt _ _ _ h3⟩

theorem readRow_ok (n : Nat) (s s' : Scanner) (row : List Pixel)
    (h : readRow n s = .ok (row, s')) : row.length = n ∧ ∀ px ∈ row, px.isInt := by
  induction n generalizing s s' row with
  | zero =>
    simp only [readRow, Except.ok.injEq, Prod.mk.injEq] at h
    rw [← h.1]
    simp
  | succ n ih =>
    simp only [readRow] at h
    cases h1 : readPixel s with
    | error e => simp [h1] at h
    | ok r1 =>
      obtain ⟨px, s1⟩ := r1
      simp only [h1] at h
      cases h2 : readRow n s1 with
      | error e => simp [h2] at h
      | ok r2 =>
        obtain ⟨row1, s2⟩ := r2
        simp only [h2, Except.ok.injEq, Prod.mk.injEq] at h
        obtain ⟨hl, hp⟩ := ih s1 s2 row1 h2
        rw [← h.1]
        refine ⟨by simp [hl], ?_⟩
        intro q hq
        simp only [List.mem_cons] at hq
        rcases hq with rfl | hq
        · exact readPixel_isInt _ _ _ h1
        · exact hp q hq

theorem readRows_ok (n : Nat) (cols : Int) (s s' : Scanner) (rs : List (List Pixel))
    (h : readRows n cols s = .ok (rs, s')) :
    rs.length = n ∧ (∀ r ∈ rs, r.length = cols.toNat ∧ ∀ px ∈ r, px.isInt) ∧
      (rs ≠ [] → 0 ≤ cols) := by
  induction n generalizing s s' rs with
  | zero =>
    simp only [readRows, Except.ok.injEq, Prod.mk.injEq] at h
    rw [← h.1]
    simp
  | succ n ih =>
    simp only [readRows] at h
    split at h
    · simp at h
    · rename_i hc
      cases h1 : readRow cols.toNat s with
      | error e => simp [h1] at h
      | ok r1 =>
        obtain ⟨row, s1⟩ := r1
        simp only [h1] at h
        cases h2 : readRows n cols s1 with
        | error e => simp [h2] at h
        | ok r2 =>
          obtain ⟨rs1, s2⟩ := r2
          simp only [h2, Except.ok.injEq, Prod.mk.injEq] at h
          obtain ⟨hl, hp, _⟩ := ih s1 s2 rs1 h2
          have hc0 : 0 ≤ cols :=
            ((makePanics_eq_false_iff cols).1 (by simpa using hc)).1
          rw [← h.1]
          refine ⟨by simp [hl], ?_, fun _ => hc0⟩
          intro r hr
          simp only [List.mem_cons] at hr
          rcases hr with rfl | hr
          · exact readRow_ok _ _ _ _ h1
          · exact hp r hr

/-- Rows were read only after `make([]Pixel, ppmCols)` succeeded. -/
theorem readRows_alloc (n : Nat) (cols : Int) (s s' : Scanner) (rs : List (List Pixel))
    (h : readRows n cols s = .ok (rs, s')) (hne : rs ≠ []) : makePanics cols = false := by
  cases n with
  | zero =>
    simp only [readRows, Except.ok.injEq, Prod.mk.injEq] at h
    exact absurd h.1.symm hne
  | succ n =>
    simp only [readRows] at h
    split at h
    · simp at h
    · rename_i hc
      simpa using hc

/-- An accepted input gives Go integers as dimensions, a height that is not negative, and
the rows that were read: as many as the height, each as long as the width. -/
theorem readPPMFile_ok (content : List Nat) (pixels : List Pixel) (w h : Int)
    (hdec : readPPMFile content = .ok (pixels, w, h)) :
    isInt w ∧ isInt h ∧ 0 ≤ h ∧ ∃ rs : List (List Pixel), pixels = rs.flatten ∧
      rs.length = h.toNat ∧ (∀ r ∈ rs, r.length = w.toNat ∧ ∀ px ∈ r, px.isInt) ∧
      (rs ≠ [] → 0 ≤ w) := by
  simp only [readPPMFile] at hdec
  split at hdec
  · simp at hdec
  · cases h1 : scanInt (Scanner.Scan { input := content, token := [], err := false }).2 with
    | error e => simp [h1] at hdec
    | ok r1 =>
      obtain ⟨cols, s1⟩ := r1
      simp only [h1] at hdec
      cases h2 : scanInt s1 with
      | error e => simp [h2] at hdec
      | ok r2 =>
        obtain ⟨rows, s2⟩ := r2
        simp only [h2] at hdec
        split at hdec
        · simp at hdec
        · rename_i hrows
          cases h3 : readRows rows.toNat cols s2.Scan.2 with
          | error e => simp [h3] at hdec
          | ok r3 =>
            obtain ⟨rs, s4⟩ := r3
            simp only [h3] at hdec
            split_ifs at hdec
            simp only [Except.ok.injEq, Prod.mk.injEq] at hdec
            obtain ⟨hp, hw, hh⟩ := hdec
            subst hw
            subst hh
            obtain ⟨hl, hr, hc⟩ := readRows_ok _ _ _ _ _ h3
            exact ⟨scanInt_isInt _ _ _ h1, scanInt_isInt _ _ _ h2,
              ((makePanics_eq_false_iff rows).1 (by simpa using hrows)).1, rs, hp.symm,
              hl, hr, hc⟩

/-- An accepted input passed every allocation of the decoder: the slice of rows, the slice
of each row when there is one, and the flat buffer with its capacity `ppmRows*ppmCols`. -/
theorem readPPMFile_alloc (content : List Nat) (pixels : List Pixel) (w h : Int)
    (hdec : readPPMFile content = .ok (pixels, w, h)) :
    makePanics h = false ∧ (1 ≤ h → makePanics w = false) ∧
      makePanics (wrapInt (h * w)) = false ∧
      ¬ maxAlloc < elemSize * (pixels.length : Int) := by
  simp only [readPPMFile] at hdec
  split at hdec
  · simp at hdec
  · cases h1 : scanInt (Scanner.Scan { input := content, token := [], err := false }).2 with
    | error e => simp [h1] at hdec
    | ok r1 =>
      obtain ⟨cols, s1⟩ := r1
      simp only [h1] at hdec
      cases h2 : scanInt s1 with
      | error e => simp [h2] at hdec
      | ok r2 =>
        obtain ⟨rows, s2⟩ := r2
        simp only [h2] at hdec
        split at hdec
        · simp at hdec
        · rename_i hrows
          cases h3 : readRows rows.toNat cols s2.Scan.2 with
          | error e => simp [h3] at hdec
          | ok r3 =>
            obtain ⟨rs, s4⟩ := r3
            simp only [h3] at hdec
            split_ifs at hdec with herr hcap hgrow
            simp only [Except.ok.injEq, Prod.mk.injEq] at hdec
            obtain ⟨hp, hw, hh⟩ := hdec
            subst hw
            subst hh
            subst hp
            refine ⟨by simpa using hrows, ?_, by simpa using hcap, hgrow⟩
            intro hpos
            obtain ⟨hl, _, _⟩ := readRows_ok _ _ _ _ _ h3
            apply readRows_alloc _ _ _ _ _ h3
            intro hnil
            rw [hnil, List.length_nil] at hl
            omega

theorem length_flatten_rows (rs : List (List Pixel)) (c : Nat)
    (h : ∀ r ∈ rs, r.length = c) : rs.flatten.length = rs.length * c := by
  induction rs with
  | nil => simp
  | cons r rs ih =>
    rw [List.flatten_cons, List.length_append, h r (by simp),
      ih (fun q hq => h q (by simp [hq])), List.length_cons, Nat.succ_mul]
    omega

/-- The buffer of an accepted input has width*height pixels. -/
theorem readPPMFile_length (content : List Nat) (pixels : List Pixel) (w h : Int)
    (hdec : readPPMFile content = .ok (pixels, w, h)) : (pixels.length : Int) = w * h := by
  obtain ⟨_, _, hh, rs, hp, hl, hr, hc⟩ := readPPMFile_ok content pixels w h hdec
  rw [hp, length_flatten_rows rs w.toNat (fun r hr' => (hr r hr').1), hl]
  by_cases hrs : rs = []
  · subst hrs
    simp only [List.length_nil] at hl
    have : h = 0 := by omega
    subst this
    simp
  · have hw := hc hrs
    push_cast
    rw [Int.toNat_of_nonneg hw, Int.toNat_of_nonneg hh, Int.mul_comm]

/-! ## Round trip of the decoder and the encoder (C1) -/

/-- C1: for every input text that the decoder accepts as (pixels, width, height), whatever
its maxval token, the encoder writes a text for that result (it is the text that `main`
writes when no filter is selected), and decoding this text again yields exactly the same
pixel sequence, the same width and the same height. -/
theorem readPPMFile_writePPMFile_round_trip (content : List Nat) (pixels : List Pixel)
    (w h : Int) (hdec : readPPMFile content = .ok (pixels, w, h)) :
    ∃ out, writePPMFile pixels w h = some out ∧
      main ⟨false, false, false, false, [], false⟩ content = .ok out ∧
      readPPMFile out = .ok (pixels, w, h) := by
  obtain ⟨hw, hh, hh0, rs, hp, hl, hr, hc⟩ := readPPMFile_ok content pixels w h hdec
  obtain ⟨out, hout⟩ := writePPMFile_total pixels w h (readPPMFile_length content pixels w h hdec)
  refine ⟨out, hout, ?_, ?_⟩
  · simp [main, hdec, applyFilters, hout]
  · simp only [writePPMFile] at hout
    cases hb : writePixels w 0 pixels with
    | none => simp [hb] at hout
    | some body =>
      simp only [hb, Option.some.injEq] at hout
      have e1 : ascii "P3\n" = [80, 51] ++ [10] := rfl
      have e2 : ascii " " = [32] := rfl
      have e3 : ascii "\n255\n" = 10 :: ([50, 53, 53] ++ [10]) := rfl
      have e4 : ascii "P3" = [80, 51] := rfl
      have hform : out = [80, 51] ++ 10 :: (fmtInt w ++ 32 :: (fmtInt h ++ 10 ::
          ([50, 53, 53] ++ 10 :: body))) := by
        rw [← hout, e1, e2, e3]
        simp only [List.append_assoc, List.singleton_append, List.cons_append,
          List.nil_append]
      have s0 := Scan_word [80, 51] (by simp) (by decide) (by decide) 10 (Or.inr rfl)
        (fmtInt w ++ 32 :: (fmtInt h ++ 10 :: ([50, 53, 53] ++ 10 :: body))) []
      have s1 := scanInt_fmtInt [] (by simp) w hw 32 (Or.inl rfl)
        (fmtInt h ++ 10 :: ([50, 53, 53] ++ 10 :: body)) [80, 51]
      have s2 := scanInt_fmtInt [] (by simp) h hh 10 (Or.inr rfl)
        ([50, 53, 53] ++ 10 :: body) (fmtInt w)
      have s3 := Scan_word [50, 53, 53] (by simp) (by decide) (by decide) 10 (Or.inr rfl)
        body (fmtInt h)
      simp only [List.nil_append] at s1 s2
      rw [hp] at hb
      obtain ⟨hmk, hmkw, hcap, hgrow⟩ := readPPMFile_alloc content pixels w h hdec
      rw [hp] at hgrow
      have hcols : rs ≠ [] → makePanics w = false := by
        intro hne
        apply hmkw
        have := List.length_pos.mpr hne
        omega
      obtain ⟨s4, hs4, herr⟩ := readRows_encoded w w rs hr hcols 0 [] [50, 53, 53] body
        (by simp) hb
      rw [hl, List.nil_append] at hs4
      simp only [readPPMFile, hform, s0, e4, s1, s2, s3, hmk, hs4, herr, hp, hcap, hgrow]
      simp

/-- C1 on a 2x1 image whose input declares the maxval 65535 and uses tabs and line feeds. -/
theorem readPPMFile_writePPMFile_round_trip_witness :
    ∃ out, writePPMFile [⟨255, 0, 0⟩, ⟨0, 255, 0⟩] 2 1 = some out ∧
      main ⟨false, false, false, false, [], false⟩
        (ascii "P3\n2 1\n65535\n255\t0 0\n0 255 0") = .ok out ∧
      readPPMFile out = .ok ([⟨255, 0, 0⟩, ⟨0, 255, 0⟩], 2, 1) :=
  readPPMFile_writePPMFile_round_trip (ascii "P3\n2 1\n65535\n255\t0 0\n0 255 0")
    [⟨255, 0, 0⟩, ⟨0, 255, 0⟩] 2 1 (by decide)

/-! ## Involution and idempotence of the element-wise filters (C11, C12, C13) -/

theorem invertPixel_invertPixel (px : Pixel) (h : px.isInt) : invertPixel (invertPixel px) = px := by
  obtain ⟨hR, hG, hB⟩ := h
  unfold isInt minInt maxInt at hR hG hB
  cases px with
  | mk R G B =>
    simp only [invertPixel, intSub, wrapInt, Pixel.mk.injEq] at *
    refine ⟨?_, ?_, ?_⟩ <;> omega

theorem isInt_of_inRange (px : Pixel) (h : px.inRange) : px.isInt := by
  obtain ⟨hR, hG, hB⟩ := h
  unfold Pixel.isInt isInt minInt maxInt
  omega

/-- C11: for every buffer whose channel values all lie in [0,255], inverting twice gives the
buffer back. -/
theorem invertColors_involution (p : List Pixel) (hp : ∀ px ∈ p, px.inRange) :
    invertColors (invertColors p) = p := by
  unfold invertColors
  rw [List.map_map]
  conv_rhs => rw [← List.map_id p]
  rw [List.map_inj_left]
  intro px hpx
  exact invertPixel_invertPixel px (isInt_of_inRange px (hp px hpx))

/-- C11 on a buffer of two pixels. -/
theorem invertColors_involution_witness :
    invertColors (invertColors [⟨0, 128, 255⟩, ⟨17, 3, 200⟩]) = [⟨0, 128, 255⟩, ⟨17, 3, 200⟩] :=
  invertColors_involution [⟨0, 128, 255⟩, ⟨17, 3, 200⟩] (by decide)

theorem grayPixel_grayPixel (px : Pixel) : grayPixel (grayPixel px) = grayPixel px := by
  rw [grayPixel_eq px, grayPixel_eq]
  have hi := isInt_wrapInt (px.R + px.G + px.B)
  generalize wrapInt (px.R + px.G + px.B) = s at hi
  unfold isInt minInt maxInt at hi
  have hg : Int.tdiv (wrapInt (Int.tdiv s 3 + Int.tdiv s 3 + Int.tdiv s 3)) 3 = Int.tdiv s 3 := by
    have hw : wrapInt (Int.tdiv s 3 + Int.tdiv s 3 + Int.tdiv s 3)
        = Int.tdiv s 3 + Int.tdiv s 3 + Int.tdiv s 3 := by
      apply wrapInt_of_isInt
      unfold isInt minInt maxInt
      rw [tdiv_three]
      split <;> omega
    rw [hw]
    generalize Int.tdiv s 3 = g
    rw [tdiv_three]
    split <;> omega
  simp only [hg]

/-- C12: for every buffer, converting to grayscale twice is the same as converting once. -/
theorem convertToGrayscale_idempotent (p : List Pixel) :
    convertToGrayscale (convertToGrayscale p) = convertToGrayscale p := by
  unfold convertToGrayscale
  rw [List.map_map, List.map_inj_left]
  intro px _
  exact grayPixel_grayPixel px

theorem contrastValue_contrastValue (c : Int) : contrastValue (contrastValue c) = contrastValue c := by
  unfold contrastValue
  split <;> simp

/-- C13: for every buffer, applying extreme contrast twice is the same as applying it
once. -/
theorem applyExtremeContrast_idempotent (p : List Pixel) :
    applyExtremeContrast (applyExtremeContrast p) = applyExtremeContrast p := by
  unfold applyExtremeContrast
  rw [List.map_map, List.map_inj_left]
  intro px _
  simp only [Function.comp, contrastPixel, contrastValue_contrastValue]

/-! ## Grayscale and invert (C20) -/

theorem invert_gray_pixel (px : Pixel) (h : px.inRange) :
    invertPixel (grayPixel px) = ⟨255 - (px.R + px.G + px.B) / 3,
      255 - (px.R + px.G + px.B) / 3, 255 - (px.R + px.G + px.B) / 3⟩ := by
  obtain ⟨hR, hG, hB⟩ := h
  have hw : wrapInt (px.R + px.G + px.B) = px.R + px.G + px.B :=
    wrapInt_of_isInt (by unfold isInt minInt maxInt; omega)
  rw [grayPixel_eq, hw, Int.tdiv_eq_ediv (by omega) (by omega)]
  simp only [invertPixel, intSub]
  rw [wrapInt_of_isInt (by unfold isInt minInt maxInt; omega)]

theorem gray_invert_pixel (px : Pixel) (h : px.inRange) :
    grayPixel (invertPixel px) = ⟨(765 - (px.R + px.G + px.B)) / 3,
      (765 - (px.R + px.G + px.B)) / 3, (765 - (px.R + px.G + px.B)) / 3⟩ := by
  obtain ⟨hR, hG, hB⟩ := h
  have eR : intSub 255 px.R = 255 - px.R :=
    wrapInt_of_isInt (by unfold isInt minInt maxInt; omega)
  have eG : intSub 255 px.G = 255 - px.G :=
    wrapInt_of_isInt (by unfold isInt minInt maxInt; omega)
  have eB : intSub 255 px.B = 255 - px.B :=
    wrapInt_of_isInt (by unfold isInt minInt maxInt; omega)
  have es : 255 - px.R + (255 - px.G) + (255 - px.B) = 765 - (px.R + px.G + px.B) := by omega
  have hw : wrapInt (765 - (px.R + px.G + px.B)) = 765 - (px.R + px.G + px.B) :=
    wrapInt_of_isInt (by unfold isInt minInt maxInt; omega)
  rw [grayPixel_eq]
  simp only [invertPixel, eR, eG, eB, es, hw]
  rw [Int.tdiv_eq_ediv (by omega) (by omega)]

/-- C20, counterexample: on the in-range pixel (1, 0, 0) grayscale followed by invert gives
(255, 255, 255), and invert followed by grayscale gives (254, 254, 254). -/
theorem grayscale_invert_commute_counterexample :
    Pixel.inRange ⟨1, 0, 0⟩ ∧
    invertColors (convertToGrayscale [⟨1, 0, 0⟩]) = [⟨255, 255, 255⟩] ∧
    convertToGrayscale (invertColors [⟨1, 0, 0⟩]) = [⟨254, 254, 254⟩] ∧
    invertColors (convertToGrayscale [⟨1, 0, 0⟩])
      ≠ convertToGrayscale (invertColors [⟨1, 0, 0⟩]) := by
  refine ⟨by decide, by decide, by decide, by decide⟩

/-- C20, amended: for every buffer whose channel values all lie in [0,255], grayscale followed
by invert equals invert followed by grayscale exactly when the channel sum R+G+B of every
pixel is divisible by 3. -/
theorem grayscale_invert_commute_iff (p : List Pixel) (hp : ∀ px ∈ p, px.inRange) :
    invertColors (convertToGrayscale p) = convertToGrayscale (invertColors p) ↔
      ∀ px ∈ p, (px.R + px.G + px.B) % 3 = 0 := by
  unfold invertColors convertToGrayscale
  rw [List.map_map, List.map_map, List.map_inj_left]
  constructor
  · intro h px hpx
    have e := h px hpx
    simp only [Function.comp, invert_gray_pixel px (hp px hpx),
      gray_invert_pixel px (hp px hpx), Pixel.mk.injEq, and_self] at e
    obtain ⟨hR, hG, hB⟩ := hp px hpx
    omega
  · intro h px hpx
    have e := h px hpx
    simp only [Function.comp, invert_gray_pixel px (hp px hpx),
      gray_invert_pixel px (hp px hpx), Pixel.mk.injEq, and_self]
    omega

/-- C20, amended, on a buffer of two pixels with channel sums 3 and 765. -/
theorem grayscale_invert_commute_iff_witness :
    invertColors (convertToGrayscale [⟨1, 2, 0⟩, ⟨255, 255, 255⟩])
        = convertToGrayscale (invertColors [⟨1, 2, 0⟩, ⟨255, 255, 255⟩]) ↔
      ∀ px ∈ [(⟨1, 2, 0⟩ : Pixel), ⟨255, 255, 255⟩], (px.R + px.G + px.B) % 3 = 0 :=
  grayscale_invert_commute_iff [⟨1, 2, 0⟩, ⟨255, 255, 255⟩] (by decide)

/-! ## Channel range (C19) -/

/-- A swap only rearranges: every pixel of the result is a pixel of the argument. -/
theorem swapPixels_subset (l l' : List Pixel) (i j : Int) (h : swapPixels l i j = some l') :
    ∀ px ∈ l', px ∈ l := by
  unfold swapPixels at h
  split at h
  · split at h
    · rename_i a b ha hb
      simp only [Option.some.injEq] at h
      subst h
      intro px hpx
      rcases List.mem_or_eq_of_mem_set hpx with h1 | h1
      · rcases List.mem_or_eq_of_mem_set h1 with h2 | h2
        · exact h2
        · rw [h2]
          exact List.getElem?_mem hb
      · rw [h1]
        exact List.getElem?_mem ha
    · simp at h
  · simp at h

/-- A property that every iteration preserves holds after a loop that does not panic. -/
theorem forLoop_preserves {σ : Type} (bound : Int) (body : σ → Int → Option σ)
    (Inv : σ → Prop) (step : ∀ s k s', body s k = some s' → Inv s → Inv s')
    (init final : σ) (h : forLoop bound body init = some final) (h0 : Inv init) :
    Inv final := by
  unfold forLoop at h
  generalize List.range bound.toNat = l at h
  induction l generalizing init with
  | nil =>
    simp only [List.foldlM_nil, pure, Option.some.injEq] at h
    rw [← h]
    exact h0
  | cons k l ih =>
    simp only [List.foldlM_cons, bind, Option.bind] at h
    cases hb : body init (k : Int) with
    | none => simp [hb] at h
    | some s1 =>
      simp only [hb] at h
      exact ih s1 (step init _ s1 hb h0) h

theorem flipHorizontally_subset (p q : List Pixel) (width height : Int)
    (h : flipHorizontally p width height = some q) : ∀ px ∈ q, px ∈ p := by
  unfold flipHorizontally at h
  refine forLoop_preserves height _ (fun s => ∀ px ∈ s, px ∈ p) ?_ p q h (fun _ hpx => hpx)
  intro s y s' hs hinv
  refine forLoop_preserves _ _ (fun t => ∀ px ∈ t, px ∈ p) ?_ s s' hs hinv
  intro t x t' ht hinv' px hpx
  exact hinv' px (swapPixels_subset t t' _ _ ht px hpx)

theorem flipVertically_subset (p q : List Pixel) (width height : Int)
    (h : flipVertically p width height = some q) : ∀ px ∈ q, px ∈ p := by
  unfold flipVertically at h
  refine forLoop_preserves _ _ (fun s => ∀ px ∈ s, px ∈ p) ?_ p q h (fun _ hpx => hpx)
  intro s y s' hs hinv
  refine forLoop_preserves _ _ (fun t => ∀ px ∈ t, px ∈ p) ?_ s s' hs hinv
  intro t x t' ht hinv' px hpx
  exact hinv' px (swapPixels_subset t t' _ _ ht px hpx)

theorem grayPixel_inRange (px : Pixel) (h : px.inRange) : (grayPixel px).inRange := by
  obtain ⟨hR, hG, hB⟩ := h
  have hw : wrapInt (px.R + px.G + px.B) = px.R + px.G + px.B :=
    wrapInt_of_isInt (by unfold isInt minInt maxInt; omega)
  rw [grayPixel_eq, hw, Int.tdiv_eq_ediv (by omega) (by omega)]
  unfold Pixel.inRange
  simp only
  omega

theorem invertPixel_inRange (px : Pixel) (h : px.inRange) : (invertPixel px).inRange := by
  obtain ⟨hR, hG, hB⟩ := h
  unfold Pixel.inRange
  simp only [invertPixel, intSub, wrapInt]
  omega

theorem flattenPixel_inRange (colors : List Nat) (px : Pixel) (h : px.inRange) :
    (flattenPixel colors px).inRange := by
  obtain ⟨hR, hG, hB⟩ := h
  rw [flattenPixel_eq]
  unfold Pixel.inRange
  simp only
  refine ⟨?_, ?_, ?_⟩ <;> split <;> omega

theorem contrastPixel_inRange (px : Pixel) : (contrastPixel px).inRange := by
  unfold Pixel.inRange
  simp only [contrastPixel, contrastValue]
  refine ⟨?_, ?_, ?_⟩ <;> split <;> omega

/-- One filter on a buffer of width*height in-range pixels: no panic, same length, in range. -/
theorem runFilter_inRange (width height : Int) (p : List Pixel) (f : Filter)
    (hlen : (p.length : Int) = width * height) (hp : ∀ px ∈ p, px.inRange) :
    ∃ q, runFilter width height p f = some q ∧ q.length = p.length ∧
      ∀ px ∈ q, px.inRange := by
  cases f with
  | flipH =>
    obtain ⟨q, hq, hl⟩ := flipHorizontally_total p width height hlen
    exact ⟨q, hq, hl, fun px hpx => hp px (flipHorizontally_subset p q width height hq px hpx)⟩
  | flipV =>
    obtain ⟨q, hq, hl⟩ := flipVertically_total p width height hlen
    exact ⟨q, hq, hl, fun px hpx => hp px (flipVertically_subset p q width height hq px hpx)⟩
  | grayscale =>
    refine ⟨_, rfl, by simp [convertToGrayscale], ?_⟩
    intro px hpx
    simp only [convertToGrayscale, List.mem_map] at hpx
    obtain ⟨a, ha, rfl⟩ := hpx
    exact grayPixel_inRange a (hp a ha)
  | invert =>
    refine ⟨_, rfl, by simp [invertColors], ?_⟩
    intro px hpx
    simp only [invertColors, List.mem_map] at hpx
    obtain ⟨a, ha, rfl⟩ := hpx
    exact invertPixel_inRange a (hp a ha)
  | flatten colors =>
    refine ⟨_, rfl, by simp [flattenColors], ?_⟩
    intro px hpx
    simp only [flattenColors, List.mem_map] at hpx
    obtain ⟨a, ha, rfl⟩ := hpx
    exact flattenPixel_inRange colors a (hp a ha)
  | extreme =>
    refine ⟨_, rfl, by simp [applyExtremeContrast], ?_⟩
    intro px hpx
    simp only [applyExtremeContrast, List.mem_map] at hpx
    obtain ⟨a, _, rfl⟩ := hpx
    exact contrastPixel_inRange a

theorem runPipeline_inRange (width height : Int) (filters : List Filter) (p : List Pixel)
    (hlen : (p.length : Int) = width * height) (hp : ∀ px ∈ p, px.inRange) :
    ∃ q, runPipeline width height filters p = some q ∧ q.length = p.length ∧
      ∀ px ∈ q, px.inRange := by
  unfold runPipeline
  induction filters generalizing p with
  | nil => exact ⟨p, rfl, rfl, hp⟩
  | cons f fs ih =>
    obtain ⟨q1, hq1, hl1, hr1⟩ := runFilter_inRange width height p f hlen hp
    obtain ⟨q, hq, hl, hr⟩ := ih q1 (by rw [hl1]; exact hlen) hr1
    refine ⟨q, ?_, by omega, hr⟩
    simp only [List.foldlM_cons, hq1, bind, Option.bind]
    exact hq

/-- The filter section of `main` is the pipeline of the selected filters in its fixed order. -/
theorem applyFilters_eq_runPipeline (f : Flags) (p : List Pixel) (width height : Int) :
    applyFilters f p width height = runPipeline width height
      ((if f.flipH then [Filter.flipH] else []) ++ (if f.flipV then [Filter.flipV] else [])
        ++ (if f.grayscale then [Filter.grayscale] else [])
        ++ (if f.invert then [Filter.invert] else [])
        ++ (if f.flatten ≠ [] then [Filter.flatten f.flatten] else [])
        ++ (if f.extreme then [Filter.extreme] else [])) p := by
  unfold applyFilters runPipeline
  cases f.flipH <;> cases f.flipV <;> cases f.grayscale <;> cases f.invert <;>
    cases f.extreme <;> by_cases hf : f.flatten = [] <;>
    simp [hf, runFilter, bind, Option.bind] <;>
    (repeat' split) <;> simp_all


/-- C19: for every buffer of width*height pixels whose channel values all lie in [0,255], each
of the six filters (`flattenColors` with any colour string) returns a buffer whose channel
values all lie in [0,255]; so does every pipeline built from the six filters, and so does
the filter section of `main` for every selection. -/
theorem filters_keep_channel_range (p : List Pixel) (width height : Int)
    (hlen : (p.length : Int) = width * height) (hp : ∀ px ∈ p, px.inRange) :
    (∃ q, flipHorizontally p width height = some q ∧ ∀ px ∈ q, px.inRange) ∧
    (∃ q, flipVertically p width height = some q ∧ ∀ px ∈ q, px.inRange) ∧
    (∀ px ∈ convertToGrayscale p, px.inRange) ∧
    (∀ px ∈ invertColors p, px.inRange) ∧
    (∀ colors : List Nat, ∀ px ∈ flattenColors p colors, px.inRange) ∧
    (∀ px ∈ applyExtremeContrast p, px.inRange) ∧
    (∀ filters : List Filter, ∃ q, runPipeline width height filters p = some q ∧
      ∀ px ∈ q, px.inRange) ∧
    (∀ f : Flags, ∃ q, applyFilters f p width height = some q ∧ ∀ px ∈ q, px.inRange) := by
  have one : ∀ f : Filter, ∃ q, runFilter width height p f = some q ∧ ∀ px ∈ q, px.inRange := by
    intro f
    obtain ⟨q, hq, _, hr⟩ := runFilter_inRange width height p f hlen hp
    exact ⟨q, hq, hr⟩
  have many : ∀ filters : List Filter, ∃ q, runPipeline width height filters p = some q ∧
      ∀ px ∈ q, px.inRange := by
    intro filters
    obtain ⟨q, hq, _, hr⟩ := runPipeline_inRange width height filters p hlen hp
    exact ⟨q, hq, hr⟩
  refine ⟨one Filter.flipH, one Filter.flipV, ?_, ?_, ?_, ?_, many, ?_⟩
  · obtain ⟨q, hq, hr⟩ := one Filter.grayscale
    simp only [runFilter, Option.some.injEq] at hq
    rw [hq]
    exact hr
  · obtain ⟨q, hq, hr⟩ := one Filter.invert
    simp only [runFilter, Option.some.injEq] at hq
    rw [hq]
    exact hr
  · intro colors
    obtain ⟨q, hq, hr⟩ := one (Filter.flatten colors)
    simp only [runFilter, Option.some.injEq] at hq
    rw [hq]
    exact hr
  · obtain ⟨q, hq, hr⟩ := one Filter.extreme
    simp only [runFilter, Option.some.injEq] at hq
    rw [hq]
    exact hr
  · intro f
    rw [applyFilters_eq_runPipeline]
    exact many _

/-- C19 on a 2x1 buffer. -/
theorem filters_keep_channel_range_witness :
    (∃ q, flipHorizontally [⟨255, 0, 0⟩, ⟨0, 255, 7⟩] 2 1 = some q ∧ ∀ px ∈ q, px.inRange) ∧
    (∃ q, flipVertically [⟨255, 0, 0⟩, ⟨0, 255, 7⟩] 2 1 = some q ∧ ∀ px ∈ q, px.inRange) ∧
    (∀ px ∈ convertToGrayscale [⟨255, 0, 0⟩, ⟨0, 255, 7⟩], px.inRange) ∧
    (∀ px ∈ invertColors [⟨255, 0, 0⟩, ⟨0, 255, 7⟩], px.inRange) ∧
    (∀ colors : List Nat, ∀ px ∈ flattenColors [⟨255, 0, 0⟩, ⟨0, 255, 7⟩] colors,
      px.inRange) ∧
    (∀ px ∈ applyExtremeContrast [⟨255, 0, 0⟩, ⟨0, 255, 7⟩], px.inRange) ∧
    (∀ filters : List Filter, ∃ q,
      runPipeline 2 1 filters [⟨255, 0, 0⟩, ⟨0, 255, 7⟩] = some q ∧ ∀ px ∈ q, px.inRange) ∧
    (∀ f : Flags, ∃ q, applyFilters f [⟨255, 0, 0⟩, ⟨0, 255, 7⟩] 2 1 = some q ∧
      ∀ px ∈ q, px.inRange) :=
  filters_keep_channel_range [⟨255, 0, 0⟩, ⟨0, 255, 7⟩] 2 1 (by decide) (by decide)

/-! ## Dimensions of an accepted input (C16) -/

/-- C16, counterexample: the decoder accepts inputs whose declared width and height are 0,
whose width is 0 with a positive height, and whose width is negative with height 0; each is
decoded to an empty buffer. -/
theorem readPPMFile_positive_dimensions_counterexample :
    readPPMFile (ascii "P3\n0 0\n255\n") = .ok ([], 0, 0) ∧
    readPPMFile (ascii "P3\n0 3\n255\n") = .ok ([], 0, 3) ∧
    readPPMFile (ascii "P3\n-5 0\n255\n") = .ok ([], -5, 0) ∧
    ¬ ((1 : Int) ≤ 0) := by
  refine ⟨by decide, by decide, by decide, by decide⟩

/-- C16, amended: for every input that the decoder accepts as (pixels, width, height), the
height is at least 0 and, when the height is at least 1, the width is at least 0; so an
input whose height is negative, or whose width is negative while the height is at least 1,
is not accepted.  A dimension 0 is accepted, with an empty buffer. -/
theorem readPPMFile_dimensions_nonnegative (content : List Nat) (pixels : List Pixel)
    (w h : Int) (hdec : readPPMFile content = .ok (pixels, w, h)) :
    0 ≤ h ∧ (1 ≤ h → 0 ≤ w) ∧ ((w = 0 ∨ h = 0) → pixels = []) := by
  obtain ⟨_, _, hh, rs, hp, hl, hr, hc⟩ := readPPMFile_ok content pixels w h hdec
  have hlen := readPPMFile_length content pixels w h hdec
  refine ⟨hh, ?_, ?_⟩
  · intro h1
    apply hc
    intro hnil
    rw [hnil] at hl
    simp only [List.length_nil] at hl
    omega
  · intro hz
    rcases hz with rfl | rfl <;> simp at hlen <;> exact hlen

/-- C16, amended, on an accepted 0x3 image. -/
theorem readPPMFile_dimensions_nonnegative_witness :
    (0 : Int) ≤ 3 ∧ ((1 : Int) ≤ 3 → (0 : Int) ≤ 0) ∧
      (((0 : Int) = 0 ∨ (3 : Int) = 0) → ([] : List Pixel) = []) :=
  readPPMFile_dimensions_nonnegative (ascii "P3\n0 3\n255\n") [] 0 3 (by decide)

/-! ## Output format of the encoder (C17) -/

/-- The line of a row that lies inside the buffer is the text of its `w` pixels. -/
theorem rowText_eq (p : List Pixel) (w r : Nat) :
    rowText p w r = ((p.drop (r * w)).take w).flatMap pixelText ++ [10] := by
  have key : ∀ (l : List Pixel) (n : Nat),
      (List.range n).flatMap (fun col => match l[col]? with
          | some px => pixelText px
          | none => [])
        = (l.take n).flatMap pixelText := by
    intro l n
    induction n with
    | zero => simp
    | succ n ih =>
      rw [List.range_succ, List.flatMap_append, ih, List.take_succ, List.flatMap_append]
      congr 1
      cases hx : l[n]? <;> simp [hx]
  unfold rowText
  have e : ascii "\n" = [10] := rfl
  rw [e, ← key (p.drop (r * w)) w]
  simp only [List.getElem?_drop]

/-- One iteration of the encoder loop. -/
theorem writePixels_step (width : Int) (i : Nat) (px : Pixel) (rest : List Pixel) :
    writePixels width i (px :: rest) = if width = 0 then none else
      (writePixels width (i + 1) rest).map (fun out =>
        pixelText px ++ (if Int.tmod ((i : Int) + 1) width = 0 then [10] else []) ++ out) := by
  have e : ascii " " = [32] := rfl
  have e2 : ascii "\n" = [10] := rfl
  simp only [writePixels, pixelText, e, e2]
  split
  · rfl
  · cases hq : writePixels width (i + 1) rest <;> simp

/-- The encoder loop on the part of a row from column `j` on, followed by further rows. -/
theorem writePixels_row (w : Nat) (seg more : List Pixel) (base j : Nat) (hseg : seg ≠ [])
    (hj : j + seg.length = w) :
    writePixels (w : Int) (base * w + j) (seg ++ more)
      = (writePixels (w : Int) (base * w + w) more).map
          (fun out => seg.flatMap pixelText ++ [10] ++ out) := by
  induction seg generalizing j with
  | nil => exact absurd rfl hseg
  | cons px seg ih =>
    have hw : ¬ ((w : Int) = 0) := by
      simp only [List.length_cons] at hj
      omega
    have hmod : Int.tmod (((base * w + j : Nat) : Int) + 1) (w : Int)
        = (((j + 1) % w : Nat) : Int) := by
      rw [Int.tmod_eq_emod (by omega) (by omega)]
      have : ((base * w + j : Nat) : Int) + 1 = ((base * w + (j + 1) : Nat) : Int) := by
        push_cast
        omega
      rw [this, ← Int.natCast_mod, Nat.mul_comm, Nat.mul_add_mod]
    rw [List.cons_append, writePixels_step, if_neg hw, hmod]
    by_cases hs : seg = []
    · subst hs
      simp only [List.length_cons, List.length_nil] at hj
      have hz : (j + 1) % w = 0 := by
        rw [hj]
        exact Nat.mod_self w
      have hidx : base * w + j + 1 = base * w + w := by omega
      simp only [hz, Nat.cast_zero, if_true, List.nil_append, hidx]
      cases hq : writePixels (w : Int) (base * w + w) more <;> simp
    · have hlt : j + 1 < w := by
        have : 0 < seg.length := List.length_pos.mpr hs
        simp only [List.length_cons] at hj
        omega
      have hz : ¬ ((((j + 1) % w : Nat) : Int) = 0) := by
        rw [Nat.mod_eq_of_lt hlt]
        omega
      have ih' := ih (j + 1) hs (by simp only [List.length_cons] at hj; omega)
      rw [show base * w + j + 1 = base * w + (j + 1) from by omega, ih', if_neg hz]
      cases hq : writePixels (w : Int) (base * w + w) more <;> simp

/-- The encoder loop on whole rows, starting at the first pixel of row `base`. -/
theorem writePixels_rows (w : Nat) (hw : 1 ≤ w) (h : Nat) (p : List Pixel) (base : Nat)
    (hlen : p.length = w * h) :
    writePixels (w : Int) (base * w) p
      = some ((List.range h).flatMap
          (fun r => ((p.drop (r * w)).take w).flatMap pixelText ++ [10])) := by
  induction h generalizing p base with
  | zero =>
    have : p = [] := List.eq_nil_of_length_eq_zero (by simpa using hlen)
    subst this
    simp [writePixels]
  | succ h ih =>
    have hlw : w ≤ p.length := by
      rw [hlen, Nat.mul_succ]
      omega
    have hsplit : p = p.take w ++ p.drop w := (List.take_append_drop w p).symm
    have hne : p.take w ≠ [] := by
      intro hnil
      have := congrArg List.length hnil
      simp only [List.length_take, List.length_nil] at this
      omega
    have hrow := writePixels_row w (p.take w) (p.drop w) base 0 hne (by
      simp only [List.length_take]
      omega)
    have ih' := ih (p.drop w) (base + 1) (by
      simp only [List.length_drop]
      rw [hlen, Nat.mul_succ]
      omega)
    rw [Nat.add_zero, ← hsplit, show base * w + w = (base + 1) * w from by
      rw [Nat.add_mul, Nat.one_mul], ih'] at hrow
    rw [hrow, List.range_succ_eq_map]
    simp only [Option.map_some', List.flatMap_cons, List.flatMap_map, Nat.zero_mul,
      List.drop_zero, List.append_assoc, Function.comp, List.drop_drop, Nat.succ_eq_add_one]
    congr 3
    apply List.flatMap_congr
    intro r _
    rw [show w + r * w = (r + 1) * w from by rw [Nat.add_mul, Nat.one_mul, Nat.add_comm]]


theorem pixelText_ne_lf (px : Pixel) : ∀ b ∈ pixelText px, b ≠ 10 := by
  intro b hb
  have e : ascii " " = [32] := rfl
  have hf : ∀ v : Int, b ∈ fmtInt v → b ≠ 10 := by
    intro v hv h10
    have := (fmtInt_bytes v b hv).2
    rw [h10] at this
    exact absurd this (by decide)
  simp only [pixelText, e, List.mem_append, List.mem_singleton] at hb
  rcases hb with ((((hb | hb) | hb) | hb) | hb) | hb
  · exact hf _ hb
  · omega
  · exact hf _ hb
  · omega
  · exact hf _ hb
  · omega

theorem pixelText_ends_with_space (px : Pixel) :
    ∃ t, pixelText px = t ++ [32] ∧ ∀ b ∈ t, b ≠ 10 := by
  refine ⟨fmtInt px.R ++ ascii " " ++ fmtInt px.G ++ ascii " " ++ fmtInt px.B, rfl, ?_⟩
  intro b hb
  apply pixelText_ne_lf px b
  unfold pixelText
  exact List.mem_append_left _ hb

/-- C17: for every width of at least 1, every height (in particular at least 1) and every
buffer `p` of width*height pixels, the encoder writes exactly the magic line `P3`, the line
with the decimal width, a space and the decimal height, the line `255`, and then for each
row from 0 to height-1 one line made of the decimal R, G and B of the pixels
`p[row*width+col]`, col from 0 to width-1, each number followed by one space; every such
line ends in a space before its line feed and contains no other line feed, so the body has
exactly height lines. -/
theorem writePPMFile_output_format (w h : Nat) (hw : 1 ≤ w) (p : List Pixel)
    (hlen : p.length = w * h) :
    writePPMFile p (w : Int) (h : Int) = some (expectedFile p w h) ∧
    ∀ r, r < h → ∃ t, rowText p w r = t ++ [32, 10] ∧ ∀ b ∈ t, b ≠ 10 := by
  constructor
  · have hrows := writePixels_rows w hw h p 0 hlen
    rw [Nat.zero_mul] at hrows
    have e : ascii "\n255\n" = ascii "\n" ++ ascii "255\n" := rfl
    have hfun : rowText p w
        = fun r => ((p.drop (r * w)).take w).flatMap pixelText ++ [10] :=
      funext (fun r => rowText_eq p w r)
    simp only [writePPMFile, Nat.cast_zero, hrows, expectedFile, e, hfun, List.append_assoc]
  · intro r hr
    rw [rowText_eq]
    have hseg : ((p.drop (r * w)).take w).length = w := by
      simp only [List.length_take, List.length_drop, hlen]
      have := Nat.mul_le_mul_left w (Nat.succ_le_of_lt hr)
      rw [Nat.mul_succ, Nat.mul_comm w r] at this
      omega
    have hne : (p.drop (r * w)).take w ≠ [] := by
      intro hnil
      rw [hnil] at hseg
      simp only [List.length_nil] at hseg
      omega
    rw [← List.dropLast_append_getLast hne, List.flatMap_append]
    obtain ⟨t, ht, hno⟩ := pixelText_ends_with_space (((p.drop (r * w)).take w).getLast hne)
    refine ⟨((p.drop (r * w)).take w).dropLast.flatMap pixelText ++ t, ?_, ?_⟩
    · simp only [List.flatMap_cons, List.flatMap_nil, List.append_nil, ht, List.append_assoc,
        List.singleton_append]
    · intro b hb
      simp only [List.mem_append, List.mem_flatMap] at hb
      rcases hb with ⟨px, _, hb⟩ | hb
      · exact pixelText_ne_lf px b hb
      · exact hno b hb

/-- C17 on a 2x2 buffer. -/
theorem writePPMFile_output_format_witness :
    writePPMFile [⟨255, 0, 0⟩, ⟨0, 255, 0⟩, ⟨1, 2, 3⟩, ⟨-4, 5, 600⟩] ((2 : Nat) : Int)
        ((2 : Nat) : Int)
      = some (expectedFile [⟨255, 0, 0⟩, ⟨0, 255, 0⟩, ⟨1, 2, 3⟩, ⟨-4, 5, 600⟩] 2 2) ∧
    ∀ r, r < 2 → ∃ t,
      rowText [⟨255, 0, 0⟩, ⟨0, 255, 0⟩, ⟨1, 2, 3⟩, ⟨-4, 5, 600⟩] 2 r = t ++ [32, 10] ∧
        ∀ b ∈ t, b ≠ 10 :=
  writePPMFile_output_format 2 2 (by decide)
    [⟨255, 0, 0⟩, ⟨0, 255, 0⟩, ⟨1, 2, 3⟩, ⟨-4, 5, 600⟩] (by decide)

/-! ## Tokens delivered by the scanner -/

theorem decodeRune_width_pos (b : Nat) (t : List Nat) : 1 ≤ (decodeRune (b :: t)).2 := by
  rcases hl : leadInfo b with _ | ⟨sz, lo, hi⟩
  · simp only [decodeRune, hl]
    split <;> simp
  · rcases t with _ | ⟨b1, _ | ⟨b2, _ | ⟨b3, t3⟩⟩⟩ <;>
      simp only [decodeRune, hl] <;> (repeat' split) <;> simp

theorem findSpace_width_pos (fuel : Nat) (data : List Nat) (i w : Nat)
    (h : findSpace fuel data = some (i, w)) : 1 ≤ w := by
  induction fuel generalizing data i with
  | zero => simp [findSpace] at h
  | succ n ih =>
    cases data with
    | nil => simp [findSpace] at h
    | cons b t =>
      simp only [findSpace] at h
      split at h
      · simp only [Option.some.injEq, Prod.mk.injEq] at h
        rw [← h.2]
        exact decodeRune_width_pos b t
      · cases hf : findSpace n (List.drop (decodeRune (b :: t)).2 (b :: t)) with
        | none => simp [hf] at h
        | some iw =>
          obtain ⟨i1, w1⟩ := iw
          simp only [hf, Option.map_some', Option.some.injEq, Prod.mk.injEq] at h
          obtain ⟨_, rfl⟩ := h
          exact ih _ i1 hf

/-- A token that `ScanWords` returns comes with a positive advance, from data that is not
empty. -/
theorem ScanWords_some (data : List Nat) (atEOF : Bool) (adv : Nat) (tok : List Nat)
    (h : ScanWords data atEOF = (adv, some tok)) : 1 ≤ adv ∧ data ≠ [] := by
  simp only [ScanWords] at h
  split at h
  · rename_i i w hf
    simp only [Prod.mk.injEq, Option.some.injEq] at h
    have hw := findSpace_width_pos _ _ i w hf
    refine ⟨by omega, ?_⟩
    intro hnil
    subst hnil
    simp [findSpace] at hf
  · split at h
    · rename_i hc
      simp only [Prod.mk.injEq, Option.some.injEq] at h
      refine ⟨by omega, ?_⟩
      intro hnil
      subst hnil
      simp at hc
    · simp at h

/-- The five outcomes of `Scan`, by the state of the scanner and the result of the split
function; `rest` is the input after its leading spaces and `buf` the buffer that holds its
first `maxScanTokenSize` bytes. -/
theorem Scan_cases (s : Scanner) (rest buf : List Nat)
    (hrest : rest = s.input.drop (skipSpaces s.input.length s.input))
    (hbuf : buf = rest.take maxScanTokenSize) :
    (∃ adv tok, s.err = true ∧ ScanWords s.input true = (adv, some tok) ∧
      s.Scan = (true, ⟨s.input.drop adv, tok, true⟩)) ∨
    (∃ adv, s.err = true ∧ ScanWords s.input true = (adv, none) ∧
      s.Scan = (false, ⟨[], [], true⟩)) ∨
    (∃ adv tok, s.err = false ∧
      ScanWords buf (decide (rest.length < maxScanTokenSize)) = (adv, some tok) ∧
      s.Scan = (true, ⟨rest.drop adv, tok, false⟩)) ∨
    (∃ adv, s.err = false ∧ rest.length < maxScanTokenSize ∧
      ScanWords buf true = (adv, none) ∧ s.Scan = (false, ⟨[], [], false⟩)) ∨
    (∃ adv, s.err = false ∧ ¬ rest.length < maxScanTokenSize ∧
      ScanWords buf false = (adv, none) ∧ s.Scan = (false, ⟨buf, [], true⟩)) := by
  subst hbuf
  subst hrest
  cases herr : s.err with
  | true =>
    rcases hsw : ScanWords s.input true with ⟨adv, _ | tok⟩
    · right; left
      refine ⟨adv, rfl, rfl, ?_⟩
      simp only [Scanner.Scan, herr, if_true, hsw]
    · left
      refine ⟨adv, tok, rfl, rfl, ?_⟩
      simp only [Scanner.Scan, herr, if_true, hsw]
  | false =>
    right; right
    rcases hsw : ScanWords
        ((s.input.drop (skipSpaces s.input.length s.input)).take maxScanTokenSize)
        (decide ((s.input.drop (skipSpaces s.input.length s.input)).length < maxScanTokenSize))
      with ⟨adv, _ | tok⟩
    · right
      by_cases hlt : (s.input.drop (skipSpaces s.input.length s.input)).length < maxScanTokenSize
      · left
        simp only [hlt, decide_True] at hsw
        refine ⟨adv, rfl, hlt, hsw, ?_⟩
        simp only [Scanner.Scan, herr, Bool.false_eq_true, if_false, hlt, decide_True, hsw,
          if_true]
      · right
        simp only [hlt, decide_False] at hsw
        refine ⟨adv, rfl, hlt, hsw, ?_⟩
        simp only [Scanner.Scan, herr, Bool.false_eq_true, if_false, hlt, decide_False, hsw]
    · left
      refine ⟨adv, tok, rfl, rfl, ?_⟩
      simp only [Scanner.Scan, herr, Bool.false_eq_true, if_false, hsw]

/-- A successful `Scan` consumes at least one byte. -/
theorem Scan_true_lt (s : Scanner) (h : s.Scan.1 = true) :
    s.Scan.2.input.length < s.input.length := by
  rcases Scan_cases s _ _ rfl rfl with ⟨adv, tok, _, hsw, hs⟩ | ⟨adv, _, _, hs⟩ |
    ⟨adv, tok, _, hsw, hs⟩ | ⟨adv, _, _, _, hs⟩ | ⟨adv, _, _, _, hs⟩
  · obtain ⟨hadv, hne⟩ := ScanWords_some _ _ _ _ hsw
    have : 0 < s.input.length := List.length_pos.mpr hne
    rw [hs]
    simp only [List.length_drop]
    omega
  · rw [hs] at h
    simp at h
  · obtain ⟨hadv, hne⟩ := ScanWords_some _ _ _ _ hsw
    have hpos := List.length_pos.mpr hne
    simp only [List.length_take, List.length_drop] at hpos
    rw [hs]
    simp only [List.length_drop]
    omega
  · rw [hs] at h
    simp at h
  · rw [hs] at h
    simp at h

theorem scanTokens_fuel (f f' : Nat) (s : Scanner) (hf : s.input.length < f)
    (hf' : s.input.length < f') : scanTokens f s = scanTokens f' s := by
  induction f generalizing f' s with
  | zero => omega
  | succ n ih =>
    obtain ⟨m, rfl⟩ : ∃ m, f' = m + 1 := ⟨f' - 1, by omega⟩
    simp only [scanTokens]
    split
    · rename_i hs
      have := Scan_true_lt s hs
      rw [ih m s.Scan.2 (by omega) (by omega)]
    · rfl

theorem tokens_of_Scan_true (s : Scanner) (h : s.Scan.1 = true) :
    s.tokens = s.Scan.2.token :: s.Scan.2.tokens := by
  have hlt := Scan_true_lt s h
  unfold Scanner.tokens
  rw [scanTokens, if_pos h,
    scanTokens_fuel s.input.length (s.Scan.2.input.length + 1) s.Scan.2 hlt (by omega)]

theorem tokens_of_Scan_false (s : Scanner) (h : s.Scan.1 = false) : s.tokens = [] := by
  unfold Scanner.tokens
  simp [scanTokens, h]

theorem Scan_of_tokens_cons (s : Scanner) (t : List Nat) (ts : List (List Nat))
    (h : s.tokens = t :: ts) : s.Scan.1 = true ∧ s.Scan.2.token = t ∧ s.Scan.2.tokens = ts := by
  cases hs : s.Scan.1 with
  | false =>
    rw [tokens_of_Scan_false s hs] at h
    simp at h
  | true =>
    rw [tokens_of_Scan_true s hs] at h
    simp only [List.cons.injEq] at h
    exact ⟨rfl, h.1, h.2⟩

/-- A call of `Scan` that returns false leaves the empty string as `Text()`. -/
theorem Scan_false_token (s : Scanner) (h : s.Scan.1 = false) : s.Scan.2.token = [] := by
  rcases Scan_cases s _ _ rfl rfl with ⟨adv, tok, _, hsw, hs⟩ | ⟨adv, _, _, hs⟩ |
    ⟨adv, tok, _, hsw, hs⟩ | ⟨adv, _, _, _, hs⟩ | ⟨adv, _, _, _, hs⟩ <;>
    rw [hs] at h ⊢ <;> simp at h ⊢

/-! ## The decoder reads its tokens in order -/

/-- Reading one integer either ends the process or takes the next token, which is the text
of the integer. -/
theorem scanInt_tokens (s : Scanner) :
    scanInt s = .error Failure.fatal ∨
    ∃ v, scanInt s = .ok (v, s.Scan.2) ∧ s.tokens = s.Scan.2.token :: s.Scan.2.tokens ∧
      Atoi s.Scan.2.token = some v := by
  cases ha : Atoi s.Scan.2.token with
  | none =>
    left
    simp only [scanInt, ha, checkError]
  | some v =>
    right
    refine ⟨v, by simp only [scanInt, ha, checkError], ?_, rfl⟩
    apply tokens_of_Scan_true
    cases hs : s.Scan.1 with
    | true => rfl
    | false =>
      rw [Scan_false_token s hs] at ha
      simp [Atoi] at ha

/-- When the next token is the text of an integer, reading one integer yields it. -/
theorem scanInt_of_tokens (s : Scanner) (t : List Nat) (ts : List (List Nat)) (v : Int)
    (h : s.tokens = t :: ts) (hv : Atoi t = some v) :
    scanInt s = .ok (v, s.Scan.2) ∧ s.Scan.2.tokens = ts := by
  obtain ⟨_, ht, hts⟩ := Scan_of_tokens_cons s t ts h
  refine ⟨?_, hts⟩
  simp only [scanInt, ht, hv, checkError]

theorem readPixel_tokens (s : Scanner) :
    readPixel s = .error Failure.fatal ∨
    ∃ px s', readPixel s = .ok (px, s') ∧ ∃ ts, s.tokens = ts ++ s'.tokens ∧
      ts.map Atoi = (channels px).map some := by
  have hr : List.range 3 = [0, 1, 2] := rfl
  simp only [readPixel, hr, List.foldlM_cons, List.foldlM_nil, bind, Except.bind, pure,
    Except.pure]
  rcases scanInt_tokens s with h1 | ⟨v1, h1, t1, a1⟩
  · left
    simp only [h1]
  · rcases scanInt_tokens s.Scan.2 with h2 | ⟨v2, h2, t2, a2⟩
    · left
      simp only [h1, h2]
    · rcases scanInt_tokens s.Scan.2.Scan.2 with h3 | ⟨v3, h3, t3, a3⟩
      · left
        simp only [h1, h2, h3]
      · right
        refine ⟨⟨v1, v2, v3⟩, s.Scan.2.Scan.2.Scan.2, by simp only [h1, h2, h3],
          [s.Scan.2.token, s.Scan.2.Scan.2.token, s.Scan.2.Scan.2.Scan.2.token], ?_, ?_⟩
        · rw [t1, t2, t3]
          rfl
        · simp only [List.map_cons, List.map_nil, a1, a2, a3, channels]

theorem readRow_tokens (n : Nat) (s : Scanner) :
    readRow n s = .error Failure.fatal ∨
    ∃ row s', readRow n s = .ok (row, s') ∧ row.length = n ∧ ∃ ts, s.tokens = ts ++ s'.tokens ∧
      ts.map Atoi = (row.flatMap channels).map some := by
  induction n generalizing s with
  | zero => exact Or.inr ⟨[], s, rfl, rfl, [], rfl, rfl⟩
  | succ n ih =>
    rcases readPixel_tokens s with h1 | ⟨px, s1, h1, ts1, e1, a1⟩
    · left
      simp only [readRow, h1]
    · rcases ih s1 with h2 | ⟨row, s2, h2, hl, ts2, e2, a2⟩
      · left
        simp only [readRow, h1, h2]
      · right
        refine ⟨px :: row, s2, by simp only [readRow, h1, h2], by simp [hl], ts1 ++ ts2, ?_, ?_⟩
        · rw [e1, e2, List.append_assoc]
        · rw [List.map_append, a1, a2, List.flatMap_cons, List.map_append]

theorem readRows_tokens (n : Nat) (cols : Int) (hc : makePanics cols = false) (s : Scanner) :
    readRows n cols s = .error Failure.fatal ∨
    ∃ rs s', readRows n cols s = .ok (rs, s') ∧ rs.flatten.length = n * cols.toNat ∧
      ∃ ts, s.tokens = ts ++ s'.tokens ∧
        ts.map Atoi = (rs.flatten.flatMap channels).map some := by
  induction n generalizing s with
  | zero => exact Or.inr ⟨[], s, rfl, by simp, [], rfl, rfl⟩
  | succ n ih =>
    rcases readRow_tokens cols.toNat s with h1 | ⟨row, s1, h1, hl1, ts1, e1, a1⟩
    · left
      simp only [readRows, hc, Bool.false_eq_true, if_false, h1]
    · rcases ih s1 with h2 | ⟨rs, s2, h2, hl2, ts2, e2, a2⟩
      · left
        simp only [readRows, hc, Bool.false_eq_true, if_false, h1, h2]
      · right
        refine ⟨row :: rs, s2,
          by simp only [readRows, hc, Bool.false_eq_true, if_false, h1, h2], ?_,
          ts1 ++ ts2, ?_, ?_⟩
        · rw [List.flatten_cons, List.length_append, hl1, hl2, Nat.succ_mul]
          omega
        · rw [e1, e2, List.append_assoc]
        · rw [List.map_append, a1, a2, List.flatten_cons, List.flatMap_append,
            List.map_append]

theorem length_flatMap_channels (l : List Pixel) : (l.flatMap channels).length = 3 * l.length := by
  induction l with
  | nil => rfl
  | cons px l ih =>
    rw [List.flatMap_cons, List.length_append, ih, List.length_cons]
    simp only [channels, List.length_cons, List.length_nil]
    omega

/-! ## Truncated pixel data (C15) -/

/-- On tokens `P3`, a width and a height of at least 1, a maxval and then fewer than
3*width*height tokens, the decoder stops in `make` when a dimension is out of range for it,
and otherwise in `checkError` at the first channel that has no integer token. -/
theorem readPPMFile_short (content wt ht mt : List Nat)
    (rest : List (List Nat)) (w h : Int)
    (htok : tokens content = ascii "P3" :: wt :: ht :: mt :: rest)
    (hw : Atoi wt = some w) (hh : Atoi ht = some h) (hw1 : 1 ≤ w) (hh1 : 1 ≤ h)
    (hshort : (rest.length : Int) < 3 * w * h) :
    readPPMFile content =
      if makePanics h = true ∨ makePanics w = true then .error Failure.panic
      else .error Failure.fatal := by
  unfold tokens at htok
  obtain ⟨h0, ht0, hts0⟩ := Scan_of_tokens_cons _ _ _ htok
  obtain ⟨h1, hts1⟩ := scanInt_of_tokens _ wt _ w hts0 hw
  obtain ⟨h2, hts2⟩ := scanInt_of_tokens _ ht _ h hts1 hh
  obtain ⟨_, _, hts3⟩ := Scan_of_tokens_cons _ _ _ hts2
  cases hmh : makePanics h with
  | true =>
    simp only [readPPMFile, h0, ht0, Bool.not_true, bne_self_eq_false, Bool.or_self,
      Bool.false_eq_true, if_false, h1, h2, hmh, if_true, true_or]
  | false =>
    cases hmw : makePanics w with
    | true =>
      obtain ⟨n, hn⟩ : ∃ n, h.toNat = n + 1 := ⟨h.toNat - 1, by omega⟩
      simp only [readPPMFile, h0, ht0, Bool.not_true, bne_self_eq_false, Bool.or_self,
        Bool.false_eq_true, if_false, h1, h2, hmh, hn, readRows, hmw, if_true, or_true]
    | false =>
      simp only [readPPMFile, h0, ht0, Bool.not_true, bne_self_eq_false, Bool.or_self,
        Bool.false_eq_true, if_false, h1, h2, hmh, or_self]
      rcases readRows_tokens h.toNat w hmw
          (Scanner.Scan (Scanner.Scan (Scanner.Scan (Scanner.Scan
            { input := content, token := [], err := false }).2).2).2).2
        with hr | ⟨rs, s', hr, hl, ts, e, a⟩
      · simp only [hr]
      · exfalso
        rw [hts3] at e
        have hlen := congrArg List.length a
        have hrest := congrArg List.length e
        simp only [List.length_map, length_flatMap_channels, hl, List.length_append]
          at hlen hrest
        have hprod : ((h.toNat * w.toNat : Nat) : Int) = h * w := by
          push_cast
          rw [Int.toNat_of_nonneg (by omega), Int.toNat_of_nonneg (by omega)]
        have hge : (3 : Int) * (h * w) ≤ rest.length := by
          rw [← hprod]
          omega
        have : 3 * w * h = 3 * (h * w) := by ring
        omega

/-- C15, amended: for every input whose tokens are `P3`, the text of an integer width of at
least 1, the text of an integer height of at least 1, a maxval token, and then fewer than
3*width*height further tokens, the decoder never returns a pixel buffer, no missing channel
is padded, and `main` writes nothing.  When both dimensions are in the range of `make`
(24*height and 24*width at most `maxAlloc` = 2^48 bytes) the process ends through
`log.Fatal` in `checkError`; when one of them is beyond that range it ends earlier, in the
run-time panic of `make`, before any channel token is read. -/
theorem readPPMFile_truncated_fails (content wt ht mt : List Nat)
    (rest : List (List Nat)) (w h : Int)
    (htok : tokens content = ascii "P3" :: wt :: ht :: mt :: rest)
    (hw : Atoi wt = some w) (hh : Atoi ht = some h) (hw1 : 1 ≤ w) (hh1 : 1 ≤ h)
    (hshort : (rest.length : Int) < 3 * w * h) :
    (elemSize * h ≤ maxAlloc → elemSize * w ≤ maxAlloc →
        readPPMFile content = .error Failure.fatal ∧
          ∀ f : Flags, main f content = .error Failure.fatal) ∧
      (maxAlloc < elemSize * h ∨ maxAlloc < elemSize * w →
        readPPMFile content = .error Failure.panic ∧
          ∀ f : Flags, main f content = .error Failure.panic) ∧
      (∀ r, readPPMFile content ≠ .ok r) ∧
      ∀ (f : Flags) (out : List Nat), main f content ≠ .ok out := by
  have hdec := readPPMFile_short content wt ht mt rest w h htok hw hh hw1 hh1 hshort
  have hfatal : elemSize * h ≤ maxAlloc → elemSize * w ≤ maxAlloc →
      readPPMFile content = .error Failure.fatal := by
    intro hah haw
    have hmh : makePanics h = false := (makePanics_eq_false_iff h).2 ⟨by omega, hah⟩
    have hmw : makePanics w = false := (makePanics_eq_false_iff w).2 ⟨by omega, haw⟩
    rw [hdec, hmh, hmw]
    simp
  have hpanic : maxAlloc < elemSize * h ∨ maxAlloc < elemSize * w →
      readPPMFile content = .error Failure.panic := by
    intro hor
    have hm : makePanics h = true ∨ makePanics w = true := by
      rcases hor with hb | hb
      · left
        simp only [makePanics, Bool.or_eq_true, decide_eq_true_eq]
        exact Or.inr hb
      · right
        simp only [makePanics, Bool.or_eq_true, decide_eq_true_eq]
        exact Or.inr hb
    rw [hdec, if_pos hm]
  have hno : ∀ r, readPPMFile content ≠ .ok r := by
    intro r hr
    rw [hdec] at hr
    split_ifs at hr
  refine ⟨fun hah haw => ⟨hfatal hah haw, fun f => ?_⟩,
    fun hor => ⟨hpanic hor, fun f => ?_⟩, hno, fun f out hout => ?_⟩
  · simp only [main, hfatal hah haw]
  · simp only [main, hpanic hor]
  · cases hr : readPPMFile content with
    | ok r => exact hno r hr
    | error e => simp [main, hr] at hout

/-- C15, amended, on a 2x1 image with five of its six channel values, which ends in
`log.Fatal`, and on an image of one column and 11728124029611 rows (24 bytes each, eight
bytes more than 2^48 in all) with one token of data, which ends in the panic of `make`. -/
theorem readPPMFile_truncated_fails_witness :
    (readPPMFile (ascii "P3\n2 1\n255\n255 0 0 0 255 \n") = .error Failure.fatal ∧
      ∀ f : Flags, main f (ascii "P3\n2 1\n255\n255 0 0 0 255 \n") = .error Failure.fatal) ∧
    (readPPMFile (ascii "P3\n1 11728124029611\n255\n7\n") = .error Failure.panic ∧
      ∀ f : Flags, main f (ascii "P3\n1 11728124029611\n255\n7\n") = .error Failure.panic) :=
  ⟨(readPPMFile_truncated_fails (ascii "P3\n2 1\n255\n255 0 0 0 255 \n") (ascii "2")
      (ascii "1") (ascii "255") [ascii "255", ascii "0", ascii "0", ascii "0", ascii "255"]
      2 1 (by decide) (by decide) (by decide) (by decide) (by decide) (by decide)).1
      (by decide) (by decide),
   (readPPMFile_truncated_fails (ascii "P3\n1 11728124029611\n255\n7\n") (ascii "1")
      (ascii "11728124029611") (ascii "255") [ascii "7"]
      1 11728124029611 (by decide) (by decide) (by decide) (by decide) (by decide)
      (by decide)).2.1 (Or.inl (by decide))⟩

/-- C15 as stated does not hold: on the tokens `P3`, a width of 2^62, a height of 1 and a
maxval, with no pixel data at all, `make([]Pixel, ppmCols)` needs 24 * 2^62 bytes, which
does not fit the address space, and panics (`makeslice: len out of range`) before any
channel token is read; the process ends in that run-time panic and not in the fatal error
of `checkError`. -/
theorem readPPMFile_truncated_fatal_counterexample :
    tokens (ascii "P3 4611686018427387904 1 255")
        = [ascii "P3", ascii "4611686018427387904", ascii "1", ascii "255"] ∧
      Atoi (ascii "4611686018427387904") = some 4611686018427387904 ∧
      Atoi (ascii "1") = some 1 ∧
      ((([] : List (List Nat)).length : Nat) : Int) < 3 * 4611686018427387904 * 1 ∧
      readPPMFile (ascii "P3 4611686018427387904 1 255") = .error Failure.panic ∧
      readPPMFile (ascii "P3 4611686018427387904 1 255") ≠ .error Failure.fatal := by
  refine ⟨by decide, by decide, by decide, by decide, by decide, by decide⟩

/-! ## Length and order of the decoded buffer (C18) -/

theorem tokens_of_empty_input (tok : List Nat) (err : Bool) :
    Scanner.tokens { input := [], token := tok, err := err } = [] := by
  apply tokens_of_Scan_false
  cases err <;> rfl

theorem ScanWords_none_at_EOF (buf : List Nat) (adv : Nat)
    (h : ScanWords buf false = (adv, none)) :
    (∃ tok, ScanWords buf true = (buf.length, some tok)) ∨
      ∃ adv', ScanWords buf true = (adv', none) := by
  rcases hf : findSpace (buf.drop (skipSpaces buf.length buf)).length
      (buf.drop (skipSpaces buf.length buf)) with _ | ⟨i, width⟩
  · simp only [ScanWords, hf]
    split
    · exact Or.inl ⟨_, rfl⟩
    · exact Or.inr ⟨_, rfl⟩
  · simp only [ScanWords, hf, Prod.mk.injEq] at h
    exact absurd h.2 (by simp)

/-- After a call of `Scan` that returns false the scanner delivers at most one more token. -/
theorem tokens_after_Scan_false (s : Scanner) (h : s.Scan.1 = false) :
    s.Scan.2.tokens.length ≤ 1 := by
  rcases Scan_cases s _ _ rfl rfl with ⟨adv, tok, _, hsw, hs⟩ | ⟨adv, _, _, hs⟩ |
    ⟨adv, tok, _, hsw, hs⟩ | ⟨adv, _, _, _, hs⟩ | ⟨adv, _, _, hsw, hs⟩
  · rw [hs] at h
    simp at h
  · rw [hs, tokens_of_empty_input]
    simp
  · rw [hs] at h
    simp at h
  · rw [hs, tokens_of_empty_input]
    simp
  · rw [hs]
    simp only
    rcases ScanWords_none_at_EOF _ _ hsw with ⟨tok, ht⟩ | ⟨adv', ht⟩
    · have hscan : Scanner.Scan ⟨List.take maxScanTokenSize
          (List.drop (skipSpaces s.input.length s.input) s.input), [], true⟩
          = (true, ⟨[], tok, true⟩) := by
        simp only [Scanner.Scan, if_true, ht, List.drop_length]
      rw [tokens_of_Scan_true _ (by rw [hscan]), hscan, tokens_of_empty_input]
      simp
    · have hscan : (Scanner.Scan ⟨List.take maxScanTokenSize
          (List.drop (skipSpaces s.input.length s.input) s.input), [], true⟩).1 = false := by
        simp only [Scanner.Scan, if_true, ht]
      rw [tokens_of_Scan_false _ hscan]
      simp

/-- The steps of the decoder on an accepted input. -/
theorem readPPMFile_steps (content : List Nat) (pixels : List Pixel) (w h : Int)
    (hdec : readPPMFile content = .ok (pixels, w, h)) :
    ∃ s1 s2 rs s4,
      (Scanner.Scan { input := content, token := [], err := false }).1 = true ∧
      (Scanner.Scan { input := content, token := [], err := false }).2.token = ascii "P3" ∧
      scanInt (Scanner.Scan { input := content, token := [], err := false }).2 = .ok (w, s1) ∧
      scanInt s1 = .ok (h, s2) ∧ 0 ≤ h ∧
      readRows h.toNat w s2.Scan.2 = .ok (rs, s4) ∧ s4.err = false ∧ pixels = rs.flatten := by
  simp only [readPPMFile] at hdec
  split at hdec
  · simp at hdec
  · rename_i hmagic
    simp only [Bool.or_eq_true, Bool.not_eq_true', bne_iff_ne, ne_eq, not_or,
      Bool.not_eq_false, Decidable.not_not] at hmagic
    cases h1 : scanInt (Scanner.Scan { input := content, token := [], err := false }).2 with
    | error e => simp [h1] at hdec
    | ok r1 =>
      obtain ⟨cols, s1⟩ := r1
      simp only [h1] at hdec
      cases h2 : scanInt s1 with
      | error e => simp [h2] at hdec
      | ok r2 =>
        obtain ⟨rows, s2⟩ := r2
        simp only [h2] at hdec
        split at hdec
        · simp at hdec
        · rename_i hrows
          cases h3 : readRows rows.toNat cols s2.Scan.2 with
          | error e => simp [h3] at hdec
          | ok r3 =>
            obtain ⟨rs, s4⟩ := r3
            simp only [h3] at hdec
            split_ifs at hdec with herr
            simp only [Except.ok.injEq, Prod.mk.injEq] at hdec
            obtain ⟨hp, hw, hh⟩ := hdec
            subst hw
            subst hh
            exact ⟨s1, s2, rs, s4, hmagic.1, hmagic.2, rfl, h2,
              ((makePanics_eq_false_iff rows).1 (by simpa using hrows)).1, h3,
              by simpa using herr, hp.symm⟩

/-- The tokens after the first four, as many as there are channel values, are the texts of
the channel values of the pixels in order. -/
theorem readPPMFile_tokens (content : List Nat) (pixels : List Pixel) (w h : Int)
    (hdec : readPPMFile content = .ok (pixels, w, h)) :
    (((tokens content).drop 4).take (3 * pixels.length)).map Atoi
      = (pixels.flatMap channels).map some := by
  obtain ⟨s1, s2, rs, s4, h0, _, h1, h2, hh, h3, _, hp⟩ := readPPMFile_steps content pixels w h hdec
  by_cases hnil : pixels = []
  · subst hnil
    simp
  · have hrs : rs ≠ [] := by
      intro hrs
      rw [hrs] at hp
      exact hnil hp
    have hcols := readRows_alloc _ _ _ _ _ h3 hrs
    have t0 : tokens content = _ := tokens_of_Scan_true _ h0
    rcases scanInt_tokens (Scanner.Scan { input := content, token := [], err := false }).2
      with hf | ⟨v1, e1, t1, _⟩
    · rw [hf] at h1
      simp at h1
    · rw [e1] at h1
      simp only [Except.ok.injEq, Prod.mk.injEq] at h1
      obtain ⟨_, rfl⟩ := h1
      rcases scanInt_tokens (Scanner.Scan { input := content, token := [], err := false }).2.Scan.2
        with hf | ⟨v2, e2, t2, _⟩
      · rw [hf] at h2
        simp at h2
      · rw [e2] at h2
        simp only [Except.ok.injEq, Prod.mk.injEq] at h2
        obtain ⟨_, rfl⟩ := h2
        rcases readRows_tokens h.toNat w hcols _ with hf | ⟨rs', s', e3, _, ts, t3, a3⟩
        · rw [hf] at h3
          simp at h3
        · rw [e3] at h3
          simp only [Except.ok.injEq, Prod.mk.injEq] at h3
          obtain ⟨rfl, rfl⟩ := h3
          have hts : ts.length = 3 * pixels.length := by
            have := congrArg List.length a3
            simp only [List.length_map, length_flatMap_channels] at this
            rw [this, hp]
          cases hs3 : (Scanner.Scan
              (Scanner.Scan { input := content, token := [], err := false }).2.Scan.2.Scan.2).1 with
          | false =>
            exfalso
            have hle := tokens_after_Scan_false _ hs3
            rw [t3, List.length_append] at hle
            have : 0 < pixels.length := List.length_pos.mpr hnil
            omega
          | true =>
            have t2' := tokens_of_Scan_true _ hs3
            rw [t0, t1, t2, t2', t3, hp]
            simp only [List.drop_succ_cons, List.drop_zero]
            rw [← hp, ← hts, List.take_left', a3, hp]
            rfl

theorem swapPixels_length (l l' : List Pixel) (i j : Int) (h : swapPixels l i j = some l') :
    l'.length = l.length := by
  unfold swapPixels at h
  split at h
  · split at h
    · simp only [Option.some.injEq] at h
      rw [← h]
      simp
    · simp at h
  · simp at h

/-- A horizontal flip that does not panic keeps the length, whatever the dimensions. -/
theorem flipHorizontally_length (p q : List Pixel) (width height : Int)
    (h : flipHorizontally p width height = some q) : q.length = p.length := by
  unfold flipHorizontally at h
  refine forLoop_preserves height _ (fun s => s.length = p.length) ?_ p q h rfl
  intro s y s' hs hinv
  refine forLoop_preserves _ _ (fun t => t.length = p.length) ?_ s s' hs hinv
  intro t x t' ht hinv'
  rw [swapPixels_length t t' _ _ ht]
  exact hinv'

/-- A vertical flip that does not panic keeps the length, whatever the dimensions. -/
theorem flipVertically_length (p q : List Pixel) (width height : Int)
    (h : flipVertically p width height = some q) : q.length = p.length := by
  unfold flipVertically at h
  refine forLoop_preserves _ _ (fun s => s.length = p.length) ?_ p q h rfl
  intro s y s' hs hinv
  refine forLoop_preserves _ _ (fun t => t.length = p.length) ?_ s s' hs hinv
  intro t x t' ht hinv'
  rw [swapPixels_length t t' _ _ ht]
  exact hinv'

theorem runFilter_length (width height : Int) (p q : List Pixel) (f : Filter)
    (h : runFilter width height p f = some q) : q.length = p.length := by
  cases f with
  | flipH => exact flipHorizontally_length p q width height h
  | flipV => exact flipVertically_length p q width height h
  | grayscale =>
    simp only [runFilter, Option.some.injEq] at h
    rw [← h]
    simp [convertToGrayscale]
  | invert =>
    simp only [runFilter, Option.some.injEq] at h
    rw [← h]
    simp [invertColors]
  | flatten colors =>
    simp only [runFilter, Option.some.injEq] at h
    rw [← h]
    simp [flattenColors]
  | extreme =>
    simp only [runFilter, Option.some.injEq] at h
    rw [← h]
    simp [applyExtremeContrast]

theorem runFilter_total (width height : Int) (p : List Pixel) (f : Filter)
    (hlen : (p.length : Int) = width * height) : ∃ q, runFilter width height p f = some q := by
  cases f with
  | flipH =>
    obtain ⟨q, hq, _⟩ := flipHorizontally_total p width height hlen
    exact ⟨q, hq⟩
  | flipV =>
    obtain ⟨q, hq, _⟩ := flipVertically_total p width height hlen
    exact ⟨q, hq⟩
  | grayscale => exact ⟨_, rfl⟩
  | invert => exact ⟨_, rfl⟩
  | flatten colors => exact ⟨_, rfl⟩
  | extreme => exact ⟨_, rfl⟩

/-- Every prefix of a pipeline, run on a buffer of width*height pixels, ends without a panic
in a buffer of width*height pixels. -/
theorem runPipeline_length (width height : Int) (filters : List Filter) (p : List Pixel)
    (hlen : (p.length : Int) = width * height) :
    ∃ q, runPipeline width height filters p = some q ∧ (q.length : Int) = width * height := by
  unfold runPipeline
  induction filters generalizing p with
  | nil => exact ⟨p, rfl, hlen⟩
  | cons f fs ih =>
    obtain ⟨q1, hq1⟩ := runFilter_total width height p f hlen
    have hl1 := runFilter_length width height p q1 f hq1
    obtain ⟨q, hq, hl⟩ := ih q1 (by rw [hl1]; exact hlen)
    refine ⟨q, ?_, hl⟩
    simp only [List.foldlM_cons, hq1, bind, Option.bind]
    exact hq

/-- C18: for every input that the decoder accepts as (pixels, width, height), the buffer has
width*height pixels, and its channel values are, in order, the integers written by the
tokens that follow the first four tokens of the input, so pixel row*width+col comes from
the tokens 4+3*(row*width+col) and the two after it; each of the six filters returns a
buffer of the length of the buffer it was given; hence after every prefix of every pipeline
of filters, and after the filter section of `main`, the buffer handed on still has
width*height pixels. -/
theorem readPPMFile_length_invariant (content : List Nat) (pixels : List Pixel) (w h : Int)
    (hdec : readPPMFile content = .ok (pixels, w, h)) :
    (pixels.length : Int) = w * h ∧
    (((tokens content).drop 4).take (3 * pixels.length)).map Atoi
      = (pixels.flatMap channels).map some ∧
    (∀ (p q : List Pixel) (width height : Int),
      flipHorizontally p width height = some q → q.length = p.length) ∧
    (∀ (p q : List Pixel) (width height : Int),
      flipVertically p width height = some q → q.length = p.length) ∧
    (∀ p : List Pixel, (convertToGrayscale p).length = p.length) ∧
    (∀ p : List Pixel, (invertColors p).length = p.length) ∧
    (∀ (p : List Pixel) (colors : List Nat), (flattenColors p colors).length = p.length) ∧
    (∀ p : List Pixel, (applyExtremeContrast p).length = p.length) ∧
    (∀ filters : List Filter, ∃ q, runPipeline w h filters pixels = some q ∧
      (q.length : Int) = w * h) ∧
    (∀ f : Flags, ∃ q, applyFilters f pixels w h = some q ∧ (q.length : Int) = w * h) := by
  have hlen := readPPMFile_length content pixels w h hdec
  refine ⟨hlen, readPPMFile_tokens content pixels w h hdec, flipHorizontally_length,
    flipVertically_length, ?_, ?_, ?_, ?_, ?_, ?_⟩
  · intro p
    simp [convertToGrayscale]
  · intro p
    simp [invertColors]
  · intro p colors
    simp [flattenColors]
  · intro p
    simp [applyExtremeContrast]
  · intro filters
    exact runPipeline_length w h filters pixels hlen
  · intro f
    rw [applyFilters_eq_runPipeline]
    exact runPipeline_length w h _ pixels hlen

/-- C18 on a 2x1 image. -/
theorem readPPMFile_length_invariant_witness :
    (([⟨255, 0, 0⟩, ⟨0, 255, 0⟩] : List Pixel).length : Int) = 2 * 1 ∧
    (((tokens (ascii "P3\n2 1\n255\n255 0 0 0 255 0 \n")).drop 4).take
        (3 * ([⟨255, 0, 0⟩, ⟨0, 255, 0⟩] : List Pixel).length)).map Atoi
      = (([⟨255, 0, 0⟩, ⟨0, 255, 0⟩] : List Pixel).flatMap channels).map some ∧
    (∀ (p q : List Pixel) (width height : Int),
      flipHorizontally p width height = some q → q.length = p.length) ∧
    (∀ (p q : List Pixel) (width height : Int),
      flipVertically p width height = some q → q.length = p.length) ∧
    (∀ p : List Pixel, (convertToGrayscale p).length = p.length) ∧
    (∀ p : List Pixel, (invertColors p).length = p.length) ∧
    (∀ (p : List Pixel) (colors : List Nat), (flattenColors p colors).length = p.length) ∧
    (∀ p : List Pixel, (applyExtremeContrast p).length = p.length) ∧
    (∀ filters : List Filter, ∃ q,
      runPipeline 2 1 filters [⟨255, 0, 0⟩, ⟨0, 255, 0⟩] = some q ∧
        (q.length : Int) = 2 * 1) ∧
    (∀ f : Flags, ∃ q, applyFilters f [⟨255, 0, 0⟩, ⟨0, 255, 0⟩] 2 1 = some q ∧
      (q.length : Int) = 2 * 1) :=
  readPPMFile_length_invariant (ascii "P3\n2 1\n255\n255 0 0 0 255 0 \n")
    [⟨255, 0, 0⟩, ⟨0, 255, 0⟩] 2 1 (by decide)

/-! ## The magic token (C14) -/

theorem leadInfo_size (p0 sz lo hi : Nat) (h : leadInfo p0 = some (sz, lo, hi)) :
    2 ≤ sz ∧ sz ≤ 4 := by
  unfold leadInfo at h
  split_ifs at h <;> simp only [Option.some.injEq, Prod.mk.injEq] at h <;> omega

/-- `DecodeRune` looks at the first four bytes at most. -/
theorem decodeRune_four (a b c d : Nat) (t : List Nat) :
    decodeRune (a :: b :: c :: d :: t) = decodeRune [a, b, c, d] := by
  rcases hl : leadInfo a with _ | ⟨sz, lo, hi⟩
  · simp only [decodeRune, hl]
  · have hsz := leadInfo_size a sz lo hi hl
    have h1 : ¬ (a :: b :: c :: d :: t).length < sz := by
      simp only [List.length_cons]
      omega
    have h2 : ¬ [a, b, c, d].length < sz := by
      simp only [List.length_cons, List.length_nil]
      omega
    simp only [decodeRune, hl, h1, h2, if_false]

theorem decodeRune_take (l : List Nat) (n : Nat) (hn : 4 ≤ n) :
    decodeRune (l.take n) = decodeRune l := by
  obtain ⟨m, rfl⟩ : ∃ m, n = m + 4 := ⟨n - 4, by omega⟩
  rcases l with _ | ⟨a, _ | ⟨b, _ | ⟨c, _ | ⟨d, t⟩⟩⟩⟩
  · rfl
  · rfl
  · rfl
  · rfl
  · simp only [List.take_succ_cons]
    rw [decodeRune_four, decodeRune_four a b c d t]

/-- After the leading spaces the data is empty or starts with a rune that is no space. -/
theorem skipSpaces_drop (fuel : Nat) (l : List Nat) (hf : l.length ≤ fuel) :
    l.drop (skipSpaces fuel l) = [] ∨
      isSpace (decodeRune (l.drop (skipSpaces fuel l))).1 = false := by
  induction fuel generalizing l with
  | zero =>
    left
    have : l = [] := List.eq_nil_of_length_eq_zero (by omega)
    subst this
    rfl
  | succ n ih =>
    cases l with
    | nil =>
      left
      rfl
    | cons b t =>
      simp only [skipSpaces]
      split
      · have hw := decodeRune_width_pos b t
        rw [← List.drop_drop]
        apply ih
        simp only [List.length_drop, List.length_cons] at hf ⊢
        omega
      · rename_i hs
        right
        simpa using hs

theorem skipSpaces_eq_zero (fuel : Nat) (l : List Nat)
    (h : l = [] ∨ isSpace (decodeRune l).1 = false) : skipSpaces fuel l = 0 := by
  cases fuel with
  | zero => rfl
  | succ n =>
    cases l with
    | nil => rfl
    | cons b t =>
      rcases h with h | h
      · simp at h
      · simp [skipSpaces, h]

theorem findSpace_P3 (fuel : Nat) (tail : List Nat) :
    findSpace (fuel + 2) (80 :: 51 :: tail)
      = (findSpace fuel tail).map (fun iw => (iw.1 + 2, iw.2)) := by
  have h80 : isSpace 80 = false := by decide
  have h51 : isSpace 51 = false := by decide
  simp only [findSpace, decodeRune_ascii 80 _ (by omega), decodeRune_ascii 51 _ (by omega), h80,
    h51, Bool.false_eq_true, if_false, List.drop_succ_cons, List.drop_zero, Option.map_map]
  cases findSpace fuel tail <;> simp [Function.comp]

theorem findSpace_zero (fuel : Nat) (l : List Nat) (w : Nat)
    (h : findSpace fuel l = some (0, w)) : l ≠ [] ∧ isSpace (decodeRune l).1 = true := by
  cases fuel with
  | zero => simp [findSpace] at h
  | succ n =>
    cases l with
    | nil => simp [findSpace] at h
    | cons b t =>
      refine ⟨by simp, ?_⟩
      simp only [findSpace] at h
      split at h
      · rename_i hs
        exact hs
      · exfalso
        have hw := decodeRune_width_pos b t
        cases hf : findSpace n (List.drop (decodeRune (b :: t)).2 (b :: t)) with
        | none => simp [hf] at h
        | some iw =>
          simp only [hf, Option.map_some', Option.some.injEq, Prod.mk.injEq] at h
          omega

theorem findSpace_of_space (fuel : Nat) (l : List Nat) (hl : l ≠ [])
    (hs : isSpace (decodeRune l).1 = true) :
    findSpace (fuel + 1) l = some (0, (decodeRune l).2) := by
  cases l with
  | nil => exact absurd rfl hl
  | cons b t => simp [findSpace, hs]

/-- On data without leading spaces, `ScanWords` returns the token `P3` exactly when the
data is `P3` at the end of the input, or `P3` followed by a space rune. -/
theorem ScanWords_P3_iff (data : List Nat) (atEOF : Bool)
    (hP : data = [] ∨ isSpace (decodeRune data).1 = false) :
    (ScanWords data atEOF).2 = some [80, 51] ↔
      (data = [80, 51] ∧ atEOF = true) ∨
      ∃ tail, data = 80 :: 51 :: tail ∧ tail ≠ [] ∧ isSpace (decodeRune tail).1 = true := by
  have h0 : skipSpaces data.length data = 0 := skipSpaces_eq_zero _ _ hP
  constructor
  · intro h
    simp only [ScanWords, h0, List.drop_zero] at h
    cases hf : findSpace data.length data with
    | none =>
      simp only [hf] at h
      split at h
      · rename_i hc
        simp only [Option.some.injEq] at h
        exact Or.inl ⟨h, by simpa using hc.1⟩
      · simp at h
    | some iw =>
      obtain ⟨i, w⟩ := iw
      simp only [hf, Option.some.injEq] at h
      right
      rcases data with _ | ⟨a, _ | ⟨b, tail⟩⟩
      · simp at h
      · cases i <;> simp at h
      · rcases i with _ | _ | i
        · simp at h
        · simp at h
        · simp only [List.take_succ_cons, List.cons.injEq, List.take_eq_nil_iff] at h
          obtain ⟨rfl, rfl, hi⟩ := h
          simp only [List.length_cons] at hf
          rw [findSpace_P3] at hf
          cases hf2 : findSpace tail.length tail with
          | none => simp [hf2] at hf
          | some iw2 =>
            obtain ⟨i2, w2⟩ := iw2
            simp only [hf2, Option.map_some', Option.some.injEq, Prod.mk.injEq] at hf
            rcases hi with hi | hi
            · have hi2 : i2 = 0 := by omega
              subst hi2
              obtain ⟨hne, hs⟩ := findSpace_zero _ _ _ hf2
              exact ⟨tail, rfl, hne, hs⟩
            · subst hi
              simp [findSpace] at hf2
  · intro h
    rcases h with ⟨rfl, rfl⟩ | ⟨tail, rfl, hne, hs⟩
    · rfl
    · obtain ⟨n, hn⟩ : ∃ n, tail.length = n + 1 :=
        ⟨tail.length - 1, by have := List.length_pos.mpr hne; omega⟩
      have hlen : (80 :: 51 :: tail).length = n + 1 + 2 := by simp [hn]
      simp only [ScanWords, h0, List.drop_zero]
      rw [hlen, findSpace_P3, findSpace_of_space n tail hne hs]
      rfl

/-- The first token of a text is the first token of the text without its leading spaces. -/
theorem firstToken_eq (content : List Nat) :
    firstToken content
      = (ScanWords (content.drop (skipSpaces content.length content)) true).2 := by
  have hP := skipSpaces_drop content.length content (Nat.le_refl _)
  have h0 := skipSpaces_eq_zero (content.drop (skipSpaces content.length content)).length _ hP
  unfold firstToken
  simp only [ScanWords, h0, List.drop_zero]
  cases findSpace (content.drop (skipSpaces content.length content)).length
      (content.drop (skipSpaces content.length content)) with
  | none =>
    simp only [List.length_drop]
    by_cases hc : content.length > skipSpaces content.length content
    · have hc' : content.length - skipSpaces content.length content > 0 := by omega
      simp only [hc, hc', and_self, if_true]
    · have hc' : ¬ content.length - skipSpaces content.length content > 0 := by omega
      simp only [hc, hc', and_false, if_false]
  | some iw => rfl

/-- The buffer of the scanner shows the token `P3` exactly when the input does. -/
theorem P3_in_buffer_iff (rest : List Nat) :
    ((rest.take maxScanTokenSize = [80, 51] ∧
        decide (rest.length < maxScanTokenSize) = true) ∨
      ∃ tail, rest.take maxScanTokenSize = 80 :: 51 :: tail ∧ tail ≠ [] ∧
        isSpace (decodeRune tail).1 = true) ↔
    ((rest = [80, 51] ∧ true = true) ∨
      ∃ tail, rest = 80 :: 51 :: tail ∧ tail ≠ [] ∧ isSpace (decodeRune tail).1 = true) := by
  obtain ⟨m, hm⟩ : ∃ m, maxScanTokenSize = m + 6 := ⟨maxScanTokenSize - 6, by decide⟩
  rw [hm]
  constructor
  · rintro (⟨h1, h2⟩ | ⟨t, h1, h2, h3⟩)
    · left
      simp only [decide_eq_true_eq] at h2
      rw [List.take_of_length_le (by omega)] at h1
      exact ⟨h1, rfl⟩
    · right
      rcases rest with _ | ⟨a, _ | ⟨b, tail⟩⟩
      · simp at h1
      · simp at h1
      · simp only [List.take_succ_cons, List.cons.injEq] at h1
        obtain ⟨rfl, rfl, rfl⟩ := h1
        refine ⟨tail, rfl, ?_, ?_⟩
        · intro hnil
          subst hnil
          simp at h2
        · rw [decodeRune_take tail (m + 4) (by omega)] at h3
          exact h3
  · rintro (⟨h1, _⟩ | ⟨tail, h1, h2, h3⟩)
    · left
      subst h1
      exact ⟨rfl, by simp⟩
    · right
      subst h1
      refine ⟨tail.take (m + 4), by simp only [List.take_succ_cons], ?_, ?_⟩
      · obtain ⟨c, t, rfl⟩ := List.exists_cons_of_ne_nil h2
        simp
      · rw [decodeRune_take tail (m + 4) (by omega)]
        exact h3

/-- The first call of `Scan` delivers `P3` exactly when `P3` is the first token of the
text. -/
theorem Scan_P3_iff (content : List Nat) :
    ((Scanner.Scan { input := content, token := [], err := false }).1 = true ∧
      (Scanner.Scan { input := content, token := [], err := false }).2.token = [80, 51]) ↔
    firstToken content = some [80, 51] := by
  have hP := skipSpaces_drop content.length content (Nat.le_refl _)
  have hPbuf : (content.drop (skipSpaces content.length content)).take maxScanTokenSize = [] ∨
      isSpace (decodeRune
        ((content.drop (skipSpaces content.length content)).take maxScanTokenSize)).1
        = false := by
    rcases hP with h | h
    · left
      rw [h]
      rfl
    · right
      rw [decodeRune_take _ _ (by decide)]
      exact h
  have hbuf := fun atEOF => ScanWords_P3_iff
    ((content.drop (skipSpaces content.length content)).take maxScanTokenSize) atEOF hPbuf
  have hrest := ScanWords_P3_iff (content.drop (skipSpaces content.length content)) true hP
  have hbr := P3_in_buffer_iff (content.drop (skipSpaces content.length content))
  rw [firstToken_eq, hrest, ← hbr]
  rcases Scan_cases { input := content, token := [], err := false } _ _ rfl rfl with
    ⟨adv, tok, he, _, _⟩ | ⟨adv, he, _, _⟩ | ⟨adv, tok, _, hsw, hs⟩ | ⟨adv, _, hlt, hsw, hs⟩ |
    ⟨adv, _, hlt, hsw, hs⟩
  · simp at he
  · simp at he
  · simp only at hsw hs
    rw [hs, ← hbuf, hsw]
    simp
  · simp only at hsw hs hlt
    rw [hs]
    have hd : decide ((content.drop (skipSpaces content.length content)).length
        < maxScanTokenSize) = true := by simpa using hlt
    rw [hd, ← hbuf, hsw]
    simp
  · simp only at hsw hs hlt
    rw [hs]
    have hd : decide ((content.drop (skipSpaces content.length content)).length
        < maxScanTokenSize) = false := by simpa using hlt
    rw [hd, ← hbuf, hsw]
    simp

theorem readRows_ne_format (n : Nat) (cols : Int) (s : Scanner) :
    readRows n cols s ≠ .error Failure.format := by
  induction n generalizing s with
  | zero => simp [readRows]
  | succ n ih =>
    simp only [readRows]
    split
    · simp
    · rcases readRow_tokens cols.toNat s with h1 | ⟨row, s1, h1, _⟩
      · simp [h1]
      · simp only [h1]
        have := ih s1
        cases h2 : readRows n cols s1 with
        | error e =>
          rw [h2] at this
          simpa using this
        | ok r => simp

/-- The decoder returns the format error exactly when the first call of `Scan` does not
deliver `P3`. -/
theorem readPPMFile_format_iff (content : List Nat) :
    readPPMFile content = .error Failure.format ↔
      ¬ ((Scanner.Scan { input := content, token := [], err := false }).1 = true ∧
        (Scanner.Scan { input := content, token := [], err := false }).2.token = [80, 51]) := by
  have e4 : ascii "P3" = [80, 51] := rfl
  constructor
  · intro h ⟨h1, h2⟩
    simp only [readPPMFile, h1, h2, e4, Bool.not_true, bne_self_eq_false, Bool.or_self,
      Bool.false_eq_true, if_false] at h
    rcases scanInt_tokens (Scanner.Scan { input := content, token := [], err := false }).2
      with hf | ⟨v1, e1, _, _⟩
    · simp [hf] at h
    · simp only [e1] at h
      rcases scanInt_tokens
          (Scanner.Scan { input := content, token := [], err := false }).2.Scan.2
        with hf | ⟨v2, e2, _, _⟩
      · simp [hf] at h
      · simp only [e2] at h
        split at h
        · simp at h
        · split at h
          · rename_i e he
            simp only [Except.error.injEq] at h
            subst h
            exact readRows_ne_format _ _ _ he
          · split_ifs at h <;> simp at h
  · intro h
    simp only [readPPMFile, e4]
    rw [if_pos]
    simp only [Bool.or_eq_true, Bool.not_eq_true', bne_iff_ne, ne_eq]
    by_cases h1 : (Scanner.Scan { input := content, token := [], err := false }).1 = true
    · right
      intro h2
      exact h ⟨h1, h2⟩
    · left
      simpa using h1

/-- C14: for every input text, the decoder returns the format error, and with it no pixel
buffer, width or height, exactly when the first whitespace-delimited token of the text is
not `P3`; this includes a text without any token.  So a first token other than `P3` always
gives the format error, after which `main` writes nothing, and a first token `P3` never
gives it. -/
theorem readPPMFile_magic_token (content : List Nat) :
    (readPPMFile content = .error Failure.format ↔ firstToken content ≠ some (ascii "P3")) ∧
    (firstToken content ≠ some (ascii "P3") →
      ∀ f : Flags, main f content = .error Failure.format) ∧
    (firstToken content = none → readPPMFile content = .error Failure.format) := by
  have e4 : ascii "P3" = [80, 51] := rfl
  have hiff : readPPMFile content = .error Failure.format ↔
      firstToken content ≠ some (ascii "P3") := by
    rw [readPPMFile_format_iff, Scan_P3_iff, e4]
  refine ⟨hiff, ?_, ?_⟩
  · intro h f
    simp only [main, hiff.mpr h]
  · intro h
    apply hiff.mpr
    rw [h]
    simp

/-- C14 on a text whose first token is `P6`, on a text of spaces only, and on a text whose
first token is `P3`. -/
theorem readPPMFile_magic_token_witness :
    (∀ f : Flags, main f (ascii "P6\n1 1\n255\n0 0 0\n") = .error Failure.format) ∧
    readPPMFile (ascii " \n\t ") = .error Failure.format ∧
    readPPMFile (ascii "P3 x") ≠ .error Failure.format :=
  ⟨(readPPMFile_magic_token (ascii "P6\n1 1\n255\n0 0 0\n")).2.1 (by decide),
   (readPPMFile_magic_token (ascii " \n\t ")).2.2 (by decide),
   fun h => ((readPPMFile_magic_token (ascii "P3 x")).1.mp h) (by decide)⟩

end PPM
